import Mathlib

/-!
Verification development for the computational core of `chemcoord`
(`src/chemcoord/xyz_functions.py`).

The Python source works on a pandas frame holding, per atom, a stable
integer key and a 3D position.  We embed positions as real 3-vectors
(floating point is modelled by exact real arithmetic), keys as naturals,
and the per-atom `bond_size`/`valency` dictionaries produced by
`preparation_of_variables` (the element table of `constants.py` merged
with `modified_properties`) as arbitrary assignments `ℕ → ℝ` / `ℕ → ℕ`,
since `constants.py` is not part of the sources under review.

Sets of atom keys that the Python code iterates in frame order are kept
as lists; sets whose order never matters for the claims are `Finset`s.
-/

/-- A 3D position vector (one row of the `['x','y','z']` columns). -/
structure Vec3 where
  x : ℝ
  y : ℝ
  z : ℝ

/-- Component access by axis, mirroring the `coordinates = ['x','y','z']`
indexing used throughout the source. -/
noncomputable def Vec3.nth (v : Vec3) (a : Fin 3) : ℝ :=
  if a = 0 then v.x else if a = 1 then v.y else v.z

/-- Euclidean distance between two positions: `np.linalg.norm(A - B)`
(`_give_distance_array`, lines 52-65). -/
noncomputable def dist3 (p q : Vec3) : ℝ :=
  Real.sqrt ((p.x - q.x) ^ 2 + (p.y - q.y) ^ 2 + (p.z - q.z) ^ 2)

/-- A molecule: the `xyz_frame`, reduced to the data the core uses — an
ordered list of (atom key, position) rows with pairwise distinct keys. -/
structure Molecule where
  atoms : List (ℕ × Vec3)
  nodup : (atoms.map Prod.fst).Nodup

/-- The frame index, in frame order. -/
def Molecule.keys (mol : Molecule) : List ℕ := mol.atoms.map Prod.fst

/-- Position lookup by atom key (`self.location`); keys outside the frame
get a default position, standing in for the Python `KeyError`. -/
def posOf (mol : Molecule) (k : ℕ) : Vec3 :=
  ((mol.atoms.find? (fun a => a.1 == k)).map Prod.snd).getD ⟨0, 0, 0⟩

/-- Raw overlap of van der Waals radii for a pair of atoms:
`bond_size_array - distance_array` (`_overlap`, lines 67-95).  The value
of an entry does not depend on which cuboid (`include`) it is computed
in, so we define it globally per key pair. -/
noncomputable def molOv (mol : Molecule) (bond_size : ℕ → ℝ) : ℕ → ℕ → ℝ :=
  fun i j => bond_size i + bond_size j - dist3 (posOf mol i) (posOf mol j)

/-- `np.fill_diagonal(overlap_array, -1.)` (line 173): self-pairs get the
sentinel `-1`.  In an array over one cuboid the diagonal is exactly the
set of equal-key pairs, because frame keys are pairwise distinct. -/
noncomputable def ovInit (ov : ℕ → ℕ → ℝ) : ℕ → ℕ → ℝ :=
  fun i j => if i = j then -1 else ov i j

/-- The atoms of the cuboid `S` bonded to `i` under the current overlap
matrix `M`: the positive entries of row `i`
(`np.nonzero(bin_overlap_array[index, :])`, line 190), in array order. -/
noncomputable def bondedTo (M : ℕ → ℕ → ℝ) (S : List ℕ) (i : ℕ) : List ℕ :=
  S.filter (fun j => decide (0 < M i j))

/-- Row sum of the binary overlap array (`actual_valency`, line 175). -/
noncomputable def degreeOf (M : ℕ → ℕ → ℝ) (S : List ℕ) (i : ℕ) : ℕ :=
  (bondedTo M S i).length

/-- `indices_of_oversaturated_atoms` (line 178): the atoms of `S` whose
actual degree under the initial matrix exceeds their valency, in array
order (`np.nonzero` returns ascending array positions). -/
noncomputable def oversatList (M : ℕ → ℕ → ℝ) (S : List ℕ) (valency : ℕ → ℕ) : List ℕ :=
  S.filter (fun i => decide (valency i < degreeOf M S i))

/-- Position of `j` in the descending sort of row `i`'s bonded overlaps
(`temp_frame.sort_values(ascending=False)`, lines 191-192): the number of
bonded atoms ranked strictly before `j`.  `sort_values` uses an unstable
quicksort, so the order among exactly equal overlaps is unspecified in
the source; we resolve such ties by ascending atom key.  The claims only
exercise pairwise distinct overlaps, where no tie can occur. -/
noncomputable def rankAbove (M : ℕ → ℕ → ℝ) (S : List ℕ) (i j : ℕ) : ℕ :=
  ((bondedTo M S i).filter
    (fun k => decide (M i j < M i k ∨ (M i k = M i j ∧ k < j)))).length

/-- `cut_bonds_to = temp_frame.iloc[theoretical_valency[index]:].index`
(line 193): everything except the `v` highest-overlap bonded atoms. -/
noncomputable def cutList (M : ℕ → ℕ → ℝ) (S : List ℕ) (i : ℕ) (v : ℕ) : List ℕ :=
  (bondedTo M S i).filter (fun j => decide (v ≤ rankAbove M S i j))

/-- One iteration of the arbitration loop body (lines 189-196): set the
overlap entries of the cut bonds to `-1`, in both directions. -/
noncomputable def arbStep (S : List ℕ) (valency : ℕ → ℕ) (M : ℕ → ℕ → ℝ) (i : ℕ) :
    ℕ → ℕ → ℝ :=
  fun a b =>
    if (a = i ∧ b ∈ cutList M S i (valency i)) ∨ (b = i ∧ a ∈ cutList M S i (valency i))
    then -1 else M a b

/-- The whole arbitration loop
(`for index in indices_of_oversaturated_atoms:`, line 189), processing
the initially oversaturated atoms in array order; the binary overlap
array is recomputed from the mutated matrix at every iteration
(line 196). -/
noncomputable def arbitrate (S : List ℕ) (valency : ℕ → ℕ) (M : ℕ → ℕ → ℝ)
    (l : List ℕ) : ℕ → ℕ → ℝ :=
  l.foldl (arbStep S valency) M

/-- The overlap matrix from which `update_dic` reads: the diagonal-filled
matrix, mutated by valency arbitration iff `use_valency` is set (when no
atom is oversaturated the loop body never runs, and folding over the
empty list is the identity, so the guard `len(...) > 0` of line 181 needs
no separate case). -/
noncomputable def ovFinal (ov : ℕ → ℕ → ℝ) (S : List ℕ) (valency : ℕ → ℕ)
    (use_valency : Bool) : ℕ → ℕ → ℝ :=
  let M0 := ovInit ov
  if use_valency then arbitrate S valency M0 (oversatList M0 S valency) else M0

/-- `get_bonds_local` (lines 171-215): run the overlap engine on the keys
`S` of one cuboid (or the whole frame), arbitrate, and accumulate every
positive pair of the final binary array into the bond dictionary
(`update_dic`, lines 207-214).  Keys outside `S` keep their previous
entry. -/
noncomputable def get_bonds_local (ov : ℕ → ℕ → ℝ) (S : List ℕ) (valency : ℕ → ℕ)
    (use_valency : Bool) (bond_dic : ℕ → Finset ℕ) : ℕ → Finset ℕ :=
  let M := ovFinal ov S valency use_valency
  fun k => bond_dic k ∪ (if k ∈ S then (bondedTo M S k).toFinset else ∅)

/-- Minimum of a list of reals (the first entry of the sorted coordinate
array, line 265); `0` for the empty list, where the Python code raises an
`IndexError` instead. -/
noncomputable def listMin : List ℝ → ℝ
  | [] => 0
  | [x] => x
  | x :: y :: xs => min x (listMin (y :: xs))

/-- Maximum of a list of reals (the last entry of the sorted coordinate
array, line 266); `0` for the empty list. -/
noncomputable def listMax : List ℝ → ℝ
  | [] => 0
  | [x] => x
  | x :: y :: xs => max x (listMax (y :: xs))

/-- All coordinates of the molecule along one axis. -/
noncomputable def coordsOn (mol : Molecule) (a : Fin 3) : List ℝ :=
  mol.atoms.map (fun r => r.2.nth a)

/-- `minimum = sorted_arrays[..][0] - 0.01` (line 265). -/
noncomputable def axMin (mol : Molecule) (a : Fin 3) : ℝ :=
  listMin (coordsOn mol a) - 0.01

/-- `maximum = sorted_arrays[..][-1] + 0.01` (line 266). -/
noncomputable def axMax (mol : Molecule) (a : Fin 3) : ℝ :=
  listMax (coordsOn mol a) + 0.01

/-- `extent = maximum - minimum` (line 267). -/
noncomputable def axExtent (mol : Molecule) (a : Fin 3) : ℝ :=
  axMax mol a - axMin mol a

/-- `steps = np.ceil(extent / maximum_edge_length).astype(int)` (line 268). -/
noncomputable def divideSteps (mol : Molecule) (mel : ℝ) (a : Fin 3) : ℤ :=
  ⌈axExtent mol a / mel⌉

/-- `cuboid_diagonal = extent / steps` (line 276): the small edge length
per axis (`edge_small`). -/
noncomputable def cuboidEdge (mol : Molecule) (mel : ℝ) (a : Fin 3) : ℝ :=
  axExtent mol a / (divideSteps mol mel a : ℝ)

/-- `origin1D` (lines 280-293): centre coordinate of cuboid number `c`
along axis `a`, `minimum + cuboid_diagonal/2 + c * cuboid_diagonal`. -/
noncomputable def origin1D (mol : Molecule) (mel : ℝ) (a : Fin 3) (c : ℕ) : ℝ :=
  axMin mol a + cuboidEdge mol mel a / 2 + (c : ℝ) * cuboidEdge mol mel a

/-- Membership in the small half-open interval of cuboid `c` on axis `a`
(`intervall_small`, lines 298, 300). -/
noncomputable def inSmall (mol : Molecule) (mel : ℝ) (a : Fin 3) (c : ℕ) (x : ℝ) : Prop :=
  origin1D mol mel a c - cuboidEdge mol mel a / 2 ≤ x ∧
    x < origin1D mol mel a c + cuboidEdge mol mel a / 2

/-- Membership in the big half-open interval of cuboid `c` on axis `a`
(`intervall_big`, lines 299, 301), whose edge is
`edge_small + difference_edge`. -/
noncomputable def inBig (mol : Molecule) (mel de : ℝ) (a : Fin 3) (c : ℕ) (x : ℝ) : Prop :=
  origin1D mol mel a c - (cuboidEdge mol mel a + de) / 2 ≤ x ∧
    x < origin1D mol mel a c + (cuboidEdge mol mel a + de) / 2

noncomputable instance (mol : Molecule) (mel : ℝ) (a : Fin 3) (c : ℕ) (x : ℝ) :
    Decidable (inSmall mol mel a c x) := by unfold inSmall; infer_instance

noncomputable instance (mol : Molecule) (mel de : ℝ) (a : Fin 3) (c : ℕ) (x : ℝ) :
    Decidable (inBig mol mel de a c x) := by unfold inBig; infer_instance

/-- One cuboid cell of the partition: its integer coordinates (the dict
key of `cube_dic`), and the keys of the atoms of its small and big sets.
The Python sets are kept in frame order. -/
structure Cuboid where
  coords : Fin 3 → ℕ
  small : List ℕ
  big : List ℕ

/-- Small set of the cuboid at coordinates `cv`: the per-axis small index
sets intersected over the three axes (lines 296-311), which is exactly
the set of atoms whose every coordinate lies in that axis' small
interval. -/
noncomputable def smallKeys (mol : Molecule) (mel : ℝ) (cv : Fin 3 → ℕ) : List ℕ :=
  mol.keys.filter (fun k => decide (∀ a : Fin 3, inSmall mol mel a (cv a) ((posOf mol k).nth a)))

/-- Big set of the cuboid at coordinates `cv` (lines 296-312). -/
noncomputable def bigKeys (mol : Molecule) (mel de : ℝ) (cv : Fin 3 → ℕ) : List ℕ :=
  mol.keys.filter (fun k => decide (∀ a : Fin 3, inBig mol mel de a (cv a) ((posOf mol k).nth a)))

/-- The cuboid coordinate triples in the order of the nested
`x_counter`/`y_counter`/`z_counter` loops (lines 308-310). -/
def tripleRange (nx ny nz : ℕ) : List (Fin 3 → ℕ) :=
  (List.range nx).flatMap fun cx =>
    (List.range ny).flatMap fun cy =>
      (List.range nz).map fun cz => ![cx, cy, cz]

/-- `_divide_et_impera` (lines 241-325): the list of cuboids, in the
insertion order of `cube_dic`.  If every axis needs exactly one step the
whole frame index is returned for both sets of a single cuboid
(lines 271-274). -/
noncomputable def _divide_et_impera (mol : Molecule) (mel de : ℝ) : List Cuboid :=
  if ∀ a : Fin 3, divideSteps mol mel a = 1 then
    [⟨![0, 0, 0], mol.keys, mol.keys⟩]
  else
    (tripleRange (divideSteps mol mel 0).toNat (divideSteps mol mel 1).toNat
        (divideSteps mol mel 2).toNat).map
      fun cv => ⟨cv, smallKeys mol mel cv, bigKeys mol mel de cv⟩

/-- `get_bonds` (lines 97-239), reduced to `complete_calculation`
(lines 217-225): with `divide_et_impera` the cuboids are processed in
dict order, each contributing the bonds of its big set
(`index_of_cube=cuboid_dic[key][1]`, line 222); otherwise a single pass
over the whole frame index runs.  `bond_dic` starts with an empty set per
key (line 151); keys never touched stay empty.  The `use_lookup` /
`set_lookup` cache (lines 227-237) only replays a previously computed
dictionary and is not modelled. -/
noncomputable def get_bonds (mol : Molecule) (bond_size : ℕ → ℝ) (valency : ℕ → ℕ)
    (use_valency divide_et_impera : Bool) (mel de : ℝ) : ℕ → Finset ℕ :=
  if divide_et_impera then
    (_divide_et_impera mol mel de).foldl
      (fun dic cube => get_bonds_local (molOv mol bond_size) cube.big valency use_valency dic)
      (fun _ => ∅)
  else
    get_bonds_local (molOv mol bond_size) mol.keys valency use_valency (fun _ => ∅)

/-- `set.pop()`: removes and returns an arbitrary element; CPython's
choice is unspecified, modelled as the minimum.  `none` on the empty set,
where Python raises `KeyError`. -/
def setPop (s : Finset ℕ) : Option (ℕ × Finset ℕ) :=
  match s.min with
  | some x => some (x, s.erase x)
  | none => none

/-- `pick` (lines 13-18): pop an element, add it back, return it.  The
result pairs the returned element with the set as the call leaves it. -/
def pick (s : Finset ℕ) : Option (ℕ × Finset ℕ) :=
  (setPop s).map (fun xr => (xr.1, insert xr.1 xr.2))

/-- Ordered insertion into an ascending list. -/
def insertAsc (x : ℕ) : List ℕ → List ℕ
  | [] => [x]
  | y :: ys => if x ≤ y then x :: y :: ys else y :: insertAsc x ys

lemma insertAsc_comm_lt (x y : ℕ) (hxy : x < y) :
    ∀ l : List ℕ, insertAsc x (insertAsc y l) = insertAsc y (insertAsc x l) := by
  intro l
  induction l with
  | nil =>
    simp only [insertAsc]
    rw [if_pos hxy.le, if_neg (by omega)]
  | cons z zs ih =>
    simp only [insertAsc]
    by_cases h1 : y ≤ z <;> by_cases h2 : x ≤ z <;>
      simp only [h1, h2, if_true, if_false, insertAsc]
    · rw [if_pos hxy.le, if_neg (by omega)]
    · omega
    · rw [if_neg (by omega)]
    · rw [ih]

lemma insertAsc_comm (x y : ℕ) (l : List ℕ) :
    insertAsc x (insertAsc y l) = insertAsc y (insertAsc x l) := by
  rcases lt_trichotomy x y with h | rfl | h
  · exact insertAsc_comm_lt x y h l
  · rfl
  · exact (insertAsc_comm_lt y x h l).symm

instance : LeftCommutative insertAsc := ⟨fun x y l => insertAsc_comm x y l⟩

/-- The elements of a finite set of keys as an ascending list (iterating
a Python set yields its elements in an unspecified order; whenever the
code materializes a set into a list we use the ascending order, and no
checked claim depends on that choice). -/
def finsetAsc (s : Finset ℕ) : List ℕ := Multiset.foldr insertAsc [] s.1

/-- The worklist loop of `_connected_to` (lines 337-341): iterate over a
list that grows at its end while the traversal runs.  Python's loop stops
when the iteration reaches the end of the grown list; the explicit fuel
bounds the number of iterations (each processed entry consumes one unit,
and only finitely many atoms can ever be appended). -/
def connectedAux (bond : ℕ → Finset ℕ) (exclude : Finset ℕ) :
    ℕ → List ℕ → Finset ℕ → Finset ℕ
  | 0, _, acc => acc
  | _ + 1, [], acc => acc
  | fuel + 1, i :: rest, acc =>
      let newAtoms := (bond i \ acc) \ exclude
      connectedAux bond exclude fuel (rest ++ finsetAsc newAtoms) (acc ∪ newAtoms)

/-- `_connected_to` (lines 328-342): seed plus its neighbours minus the
exclusions, then the worklist traversal. -/
def _connected_to (index_of_atom : ℕ) (bond_dic : ℕ → Finset ℕ) (exclude : Finset ℕ)
    (fuel : ℕ) : Finset ℕ :=
  let start := (insert index_of_atom (bond_dic index_of_atom)) \ exclude
  connectedAux bond_dic exclude fuel (finsetAsc start) start

/-- The public `connected_to` (lines 346-360): computes the bond
dictionary with every `get_bonds` default
(`use_valency=False`, `divide_et_impera=True`, `maximum_edge_length=25`,
`difference_edge=6`, no modified properties — `bond_size`/`valency` stand
for the unmodified element table), then calls the static helper.  Note
that line 359 passes `exclude=None` to `_connected_to`, so the caller's
`exclude` argument is ignored; we reproduce that faithfully.  The fuel
covers the initial worklist plus every atom that can ever be appended. -/
noncomputable def connected_to (mol : Molecule) (bond_size : ℕ → ℝ) (valency : ℕ → ℕ)
    (index_of_atom : ℕ) (exclude : Finset ℕ) : Finset ℕ :=
  let bond_dic := get_bonds mol bond_size valency false true 25 6
  _connected_to index_of_atom bond_dic ∅ (2 * mol.atoms.length + 2)

/-- A 3-vector used by the internal-coordinate geometry (differences of
positions, cross products, normals). -/
structure Vec3R where
  x : ℝ
  y : ℝ
  z : ℝ

/-- Componentwise difference of two positions. -/
noncomputable def vsub (p q : Vec3) : Vec3R := ⟨p.x - q.x, p.y - q.y, p.z - q.z⟩

/-- Difference of two geometry vectors. -/
noncomputable def rsub (p q : Vec3R) : Vec3R := ⟨p.x - q.x, p.y - q.y, p.z - q.z⟩

/-- `np.dot` on 3-vectors. -/
noncomputable def dot3 (p q : Vec3R) : ℝ := p.x * q.x + p.y * q.y + p.z * q.z

/-- `np.cross` on 3-vectors. -/
noncomputable def cross3 (p q : Vec3R) : Vec3R :=
  ⟨p.y * q.z - p.z * q.y, p.z * q.x - p.x * q.z, p.x * q.y - p.y * q.x⟩

/-- Euclidean norm of a geometry vector. -/
noncomputable def norm3 (p : Vec3R) : ℝ := Real.sqrt (dot3 p p)

/-- Modelled from the spec: `utilities.normalize` (the `utilities`
module is not among the sources) — division of a vector by its norm
(named `normalize3` here because Mathlib owns the plain name).  Division
by a zero norm yields the zero vector under real division by zero,
standing in for the NaN a float implementation would produce. -/
noncomputable def normalize3 (p : Vec3R) : Vec3R :=
  ⟨p.x / norm3 p, p.y / norm3 p, p.z / norm3 p⟩

/-- Modelled from the spec: `utilities.give_angle` (the `utilities`
module is not among the sources) — "the standard inverse-cosine of
normalized vectors, clamped to [0°,180°]", in degrees.  `Real.arccos`
already clamps its argument to `[-1, 1]`. -/
noncomputable def give_angle (p q : Vec3R) : ℝ :=
  (180 / Real.pi) * Real.arccos (dot3 (normalize3 p) (normalize3 q))

/-- The geometric core of `dihedral_degrees` (lines 652-664) on four
explicit positions: normals of the two planes from the cross products of
consecutive bond vectors, then the sign correction by the triple product
`np.dot(AB, np.cross(n1, n2))`, skipped when the unsigned angle is
exactly `0` (line 662). -/
noncomputable def dihedralVec (vi vb va vd : Vec3) : ℝ :=
  let DA := vsub va vd
  let AB := vsub vb va
  let BI := vsub vi vb
  let n1 := normalize3 (cross3 DA AB)
  let n2 := normalize3 (cross3 AB BI)
  let dihedral := give_angle n1 n2
  if dihedral ≠ 0 then
    (if 0 < dot3 AB (cross3 n1 n2) then dihedral else 360 - dihedral)
  else dihedral

/-- `dihedral_degrees` (lines 639-664): looks the four atoms up in the
frame and applies the geometric core. -/
noncomputable def dihedral_degrees (mol : Molecule) (index bond_with angle_with dihedral_with : ℕ) : ℝ :=
  dihedralVec (posOf mol index) (posOf mol bond_with) (posOf mol angle_with)
    (posOf mol dihedral_with)

/-- `mass()['topologic_center']` (lines 451-498): the plain average of
all positions. -/
noncomputable def topologicCenter (mol : Molecule) : Vec3 :=
  ⟨((mol.atoms.map (fun r => r.2.x)).sum) / mol.atoms.length,
   ((mol.atoms.map (fun r => r.2.y)).sum) / mol.atoms.length,
   ((mol.atoms.map (fun r => r.2.z)).sum) / mol.atoms.length⟩

/-- `idxmin` of a value column over a list of keys: the first key
attaining the minimum, `none` on an empty frame. -/
noncomputable def argminD : List ℕ → (ℕ → ℝ) → Option ℕ
  | [], _ => none
  | x :: xs, f =>
    match argminD xs f with
    | none => some x
    | some y => if f y < f x then some y else some x

/-- `sort_values` by a value column, ascending.  The source's quicksort
is unstable, so the order among exactly equal values is unspecified;
we use a stable merge sort (the claims never depend on tie order). -/
noncomputable def sortByVal (l : List ℕ) (f : ℕ → ℝ) : List ℕ :=
  l.mergeSort (fun a b => decide (f a ≤ f b))

/-- Loop state of `_order_of_building` (lines 794-892): the grown
`already_built`, the shrinking `to_be_built`, and the loop variables
`index`, `previous` and `mode`.  `index`/`previous` are `none` while the
corresponding Python variable is not yet assigned; the executed paths
never read an unassigned one when the loop starts from an empty prefix. -/
structure OBState where
  built : List ℕ
  todo : List ℕ
  idx : Option ℕ
  prev : Option ℕ
  mode : ℕ

/-- `zero_reference` (lines 821-824): the to-be-built atom nearest the
topologic centre. -/
noncomputable def zeroRefPick (mol : Molecule) (todo : List ℕ) : Option ℕ :=
  argminD todo (fun k => dist3 (posOf mol k) (topologicCenter mol))

/-- `one_reference` (lines 826-830): the to-be-built atom nearest the
most recently built atom. -/
noncomputable def oneRefPick (mol : Molecule) (todo : List ℕ) (i : ℕ) : Option ℕ :=
  argminD todo (fun k => dist3 (posOf mol k) (posOf mol i))

/-- `two_references` (lines 832-838): the to-be-built atom minimizing the
sum of the distances to the two most recently built atoms. -/
noncomputable def twoRefPick (mol : Molecule) (todo : List ℕ) (i p : ℕ) : Option ℕ :=
  argminD todo (fun k => dist3 (posOf mol k) (posOf mol i) + dist3 (posOf mol k) (posOf mol p))

/-- One iteration of the `recursion == 2` loop (lines 847-866).
`two_references` returns the new pick together with its first argument,
so `previous` always becomes the old `index`; the distance-threshold
reset (`bond_length > 7`) re-picks the centre-nearest atom and sets
`mode = 1`.  The final `else` is unreachable (some branch of the Python
`if`/`elif` chain always fires). -/
noncomputable def obStep2 (mol : Molecule) (s : OBState) : OBState :=
  match s.todo with
  | [] => s
  | _ :: _ =>
    if 1 < s.built.length ∨ s.mode = 2 then
      let i := s.idx.getD 0
      let j := (twoRefPick mol s.todo i (s.prev.getD 0)).getD 0
      if 7 < dist3 (posOf mol j) (posOf mol i) then
        let j2 := (zeroRefPick mol s.todo).getD 0
        ⟨s.built ++ [j2], s.todo.erase j2, some j2, some i, 1⟩
      else
        ⟨s.built ++ [j], s.todo.erase j, some j, some i, s.mode⟩
    else if s.built.length = 1 ∨ s.mode = 1 then
      let i := s.idx.getD 0
      let j := (oneRefPick mol s.todo i).getD 0
      ⟨s.built ++ [j], s.todo.erase j, some j, some i, 2⟩
    else if s.built = [] then
      let j := (zeroRefPick mol s.todo).getD 0
      ⟨s.built ++ [j], s.todo.erase j, some j, s.prev, 1⟩
    else s

/-- One iteration of the `recursion == 1` loop (lines 868-880), with the
distance-threshold fallback (`bond_length > 5`) to the centre-nearest
atom. -/
noncomputable def obStep1 (mol : Molecule) (s : OBState) : OBState :=
  match s.todo with
  | [] => s
  | _ :: _ =>
    if 0 < s.built.length then
      let i := s.idx.getD 0
      let j := (oneRefPick mol s.todo i).getD 0
      let j2 := if 5 < dist3 (posOf mol j) (posOf mol i) then (zeroRefPick mol s.todo).getD 0
                else j
      ⟨s.built ++ [j2], s.todo.erase j2, some j2, some i, s.mode⟩
    else
      let j := (zeroRefPick mol s.todo).getD 0
      ⟨s.built ++ [j], s.todo.erase j, some j, s.prev, s.mode⟩

/-- `for _ in range(number_of_atoms_to_add)` (lines 849, 869). -/
noncomputable def obLoop (step : OBState → OBState) : ℕ → OBState → OBState
  | 0, s => s
  | n + 1, s => obLoop step n (step s)

/-- An element of a build order: either a bare atom key, or a complete
caller-given build entry (the Python list mixes both; `_get_reference`
dispatches on `type(element) is list`). -/
def keyOf : ℕ ⊕ List ℕ → ℕ
  | Sum.inl k => k
  | Sum.inr e => e.headD 0

/-- `_order_of_building` (lines 794-892).  The source body refers to the
module-level names `mass`, `distance_frame`, `distance`, `xyz_frame` and
`recursion`, none of which exist at that scope; following the call sites
in `to_zmat` and the spec's reconstruction (§9), they are resolved to the
corresponding methods of the object, and `recursion` becomes the
parameter the call sites pass (its `assert recursion in {0,1,2}` is baked
into the `Fin 3` type).  `already_built` is a prefix of complete build
entries; its keys are removed from `to_be_built` up front, the loop
variables are seeded from its last two keys (with one single entry the
source seeds `index` with the one-element list `already_built[-1:]`, a
latent bug modelled as the element itself), and the produced order has
its first entries replaced by the given entries again (lines 885-889). -/
noncomputable def _order_of_building (mol : Molecule) (already_built : List (List ℕ))
    (recursion : Fin 3) : List (ℕ ⊕ List ℕ) :=
  let buildlist := already_built
  let alreadyKeys := already_built.map (fun e => e.headD 0)
  let todo0 := alreadyKeys.foldl (fun t k => t.erase k) mol.keys
  let init : Option ℕ × Option ℕ :=
    match alreadyKeys.reverse with
    | i :: p :: _ => (some i, some p)
    | [i] => (some i, none)
    | [] => (none, none)
  let st0 : OBState := ⟨alreadyKeys, todo0, init.1, init.2, 0⟩
  let final : List ℕ :=
    if recursion = 2 then (obLoop (obStep2 mol) todo0.length st0).built
    else if recursion = 1 then (obLoop (obStep1 mol) todo0.length st0).built
    else alreadyKeys ++ todo0
  (buildlist.map Sum.inr) ++ (final.drop buildlist.length).map Sum.inl

/-- `defined_entries` (lines 900-908): the caller-given entries of the
order, looked up by their leading key. -/
def definedEntry (order : List (ℕ ⊕ List ℕ)) (k : ℕ) : Option (List ℕ) :=
  (order.filterMap (fun e => match e with | Sum.inr l => some l | Sum.inl _ => none)).find?
    (fun l => l.headD 0 == k)

/-- The build order reduced to its atom keys. -/
def orderKeys (order : List (ℕ ⊕ List ℕ)) : List ℕ := order.map keyOf

/-- State of one `_get_reference` pass:
`(to_be_built, already_built, reference_list)`. -/
abbrev RefState := List ℕ × List ℕ × List (List ℕ)

/-- `first_atom` (lines 916-919); `none` models the `IndexError` of
reading `to_be_built[0]` from an empty list. -/
def refFirst : RefState → Option RefState
  | (x :: rest, built, out) => some (rest, built ++ [x], out ++ [[x]])
  | ([], _, _) => none

/-- `second_atom` (lines 921-932): a caller-defined entry wins, otherwise
the nearest already-built atom becomes the bond reference. -/
noncomputable def refSecond (mol : Molecule) (defined : ℕ → Option (List ℕ)) :
    RefState → Option RefState
  | (x :: rest, built, out) =>
    match defined x with
    | some e => some (rest, built ++ [x], out ++ [e])
    | none =>
      match argminD built (fun k => dist3 (posOf mol k) (posOf mol x)) with
      | some bw => some (rest, built ++ [x], out ++ [[x, bw]])
      | none => none
  | ([], _, _) => none

/-- `third_atom` (lines 934-945): the two nearest already-built atoms;
`none` models the unpacking error when fewer than two exist. -/
noncomputable def refThird (mol : Molecule) (defined : ℕ → Option (List ℕ)) :
    RefState → Option RefState
  | (x :: rest, built, out) =>
    match defined x with
    | some e => some (rest, built ++ [x], out ++ [e])
    | none =>
      match (sortByVal built (fun k => dist3 (posOf mol k) (posOf mol x))).take 2 with
      | [bw, aw] => some (rest, built ++ [x], out ++ [[x, bw, aw]])
      | _ => none
  | ([], _, _) => none

/-- `other_atom` (lines 947-958): the three nearest already-built atoms. -/
noncomputable def refOther (mol : Molecule) (defined : ℕ → Option (List ℕ)) :
    RefState → Option RefState
  | (x :: rest, built, out) =>
    match defined x with
    | some e => some (rest, built ++ [x], out ++ [e])
    | none =>
      match (sortByVal built (fun k => dist3 (posOf mol k) (posOf mol x))).take 3 with
      | [bw, aw, dw] => some (rest, built ++ [x], out ++ [[x, bw, aw, dw]])
      | _ => none
  | ([], _, _) => none

/-- `for _ in range(3, n_atoms): other_atom(to_be_built[0])` (lines
979-980). -/
noncomputable def refOthers (mol : Molecule) (defined : ℕ → Option (List ℕ)) :
    ℕ → RefState → Option RefState
  | 0, st => some st
  | n + 1, st => (refOther mol defined st).bind (refOthers mol defined n)

/-- The sliding four-window entries of the `recursion == 0` path for more
than three atoms (lines 999-1005). -/
def zWindows : ℕ → ℕ → ℕ → List ℕ → List (List ℕ)
  | _, _, _, [] => []
  | a, b, c, d :: rest => [d, c, b, a] :: zWindows b c d rest

/-- `_get_reference` (lines 896-1007).  Like `_order_of_building` the
source body refers to out-of-scope names (`self`, `distance_frame`),
resolved to the corresponding methods.  Note the `n_atoms == 1` branch of
the `recursion > 0` path calls `second_atom`/`third_atom` on an
exhausted `to_be_built` (lines 960-963) — modelled as `none`. -/
noncomputable def _get_reference (mol : Molecule) (order : List (ℕ ⊕ List ℕ))
    (recursion : Fin 3) : Option (List (List ℕ)) :=
  let ks := orderKeys order
  let n := ks.length
  if 0 < recursion.val then
    let d := definedEntry order
    if n = 1 then
      (((refFirst (ks, [], [])).bind (refSecond mol d)).bind (refThird mol d)).map
        (fun st => st.2.2)
    else if n = 2 then
      ((refFirst (ks, [], [])).bind (refSecond mol d)).map (fun st => st.2.2)
    else if n = 3 then
      (((refFirst (ks, [], [])).bind (refSecond mol d)).bind (refThird mol d)).map
        (fun st => st.2.2)
    else if 3 < n then
      ((((refFirst (ks, [], [])).bind (refSecond mol d)).bind (refThird mol d)).bind
        (refOthers mol d (n - 3))).map (fun st => st.2.2)
    else some []
  else
    match ks with
    | [] => some []
    | [a] => some [[a]]
    | [a, b] => some [[a], [b, a]]
    | [a, b, c] => some [[a], [b, a], [c, b, a]]
    | a :: b :: c :: rest => some ([[a], [b, a], [c, b, a]] ++ zWindows a b c rest)

/-- Pointwise symmetry of an overlap matrix. -/
def MatSymm (M : ℕ → ℕ → ℝ) : Prop := ∀ a b, M a b = M b a

/-- Symmetry of a bond dictionary. -/
def DicSymm (d : ℕ → Finset ℕ) : Prop := ∀ a b, a ∈ d b ↔ b ∈ d a

lemma dist3_comm (p q : Vec3) : dist3 p q = dist3 q p := by
  unfold dist3; congr 1; ring

lemma molOv_symm (mol : Molecule) (bond_size : ℕ → ℝ) : MatSymm (molOv mol bond_size) := by
  intro a b; unfold molOv; rw [dist3_comm]; ring

lemma ovInit_symm {M : ℕ → ℕ → ℝ} (h : MatSymm M) : MatSymm (ovInit M) := by
  intro a b; unfold ovInit
  by_cases hab : a = b
  · simp [hab]
  · rw [if_neg hab, if_neg (fun hba => hab hba.symm), h a b]

lemma arbStep_symm {S : List ℕ} {val : ℕ → ℕ} {M : ℕ → ℕ → ℝ} {i : ℕ} (h : MatSymm M) :
    MatSymm (arbStep S val M i) := by
  intro a b; simp only [arbStep]
  by_cases hc : (a = i ∧ b ∈ cutList M S i (val i)) ∨ (b = i ∧ a ∈ cutList M S i (val i))
  · rw [if_pos hc, if_pos (Or.symm hc)]
  · rw [if_neg hc, if_neg (fun h2 => hc (Or.symm h2)), h a b]

lemma arbitrate_symm {S : List ℕ} {val : ℕ → ℕ} {M : ℕ → ℕ → ℝ} (l : List ℕ)
    (h : MatSymm M) : MatSymm (arbitrate S val M l) := by
  induction l generalizing M with
  | nil => exact h
  | cons i t ih => exact ih (arbStep_symm h)

lemma ovFinal_symm {ov : ℕ → ℕ → ℝ} (S : List ℕ) (val : ℕ → ℕ) (uv : Bool)
    (h : MatSymm ov) : MatSymm (ovFinal ov S val uv) := by
  unfold ovFinal
  by_cases huv : uv = true
  · simp only [huv, if_true]; exact arbitrate_symm _ (ovInit_symm h)
  · simp only [huv, if_false, Bool.not_eq_true] at *
    simp [huv]; exact ovInit_symm h

lemma mem_bondedTo {M : ℕ → ℕ → ℝ} {S : List ℕ} {i j : ℕ} :
    j ∈ bondedTo M S i ↔ j ∈ S ∧ 0 < M i j := by
  simp [bondedTo, List.mem_filter]

/-- Membership in the dictionary produced by one `get_bonds_local` pass. -/
lemma mem_get_bonds_local {ov : ℕ → ℕ → ℝ} {S : List ℕ} {val : ℕ → ℕ} {uv : Bool}
    {dic : ℕ → Finset ℕ} {a b : ℕ} :
    a ∈ get_bonds_local ov S val uv dic b ↔
      a ∈ dic b ∨ (b ∈ S ∧ a ∈ S ∧ 0 < ovFinal ov S val uv b a) := by
  simp only [get_bonds_local, Finset.mem_union]
  constructor
  · rintro (h | h)
    · exact Or.inl h
    · right
      by_cases hbS : b ∈ S
      · rw [if_pos hbS, List.mem_toFinset, mem_bondedTo] at h
        exact ⟨hbS, h.1, h.2⟩
      · rw [if_neg hbS] at h; exact absurd h (Finset.not_mem_empty a)
  · rintro (h | ⟨hbS, haS, hpos⟩)
    · exact Or.inl h
    · right; rw [if_pos hbS, List.mem_toFinset, mem_bondedTo]; exact ⟨haS, hpos⟩

lemma get_bonds_local_symm {ov : ℕ → ℕ → ℝ} {S : List ℕ} {val : ℕ → ℕ} {uv : Bool}
    {dic : ℕ → Finset ℕ} (hov : MatSymm ov) (hd : DicSymm dic) :
    DicSymm (get_bonds_local ov S val uv dic) := by
  intro a b
  rw [mem_get_bonds_local, mem_get_bonds_local, hd a b]
  have hM := ovFinal_symm S val uv hov
  constructor
  · rintro (h | ⟨h1, h2, h3⟩)
    · exact Or.inl h
    · exact Or.inr ⟨h2, h1, by rwa [hM a b]⟩
  · rintro (h | ⟨h1, h2, h3⟩)
    · exact Or.inl h
    · exact Or.inr ⟨h2, h1, by rwa [hM b a]⟩

lemma foldl_cubes_symm {ov : ℕ → ℕ → ℝ} {val : ℕ → ℕ} {uv : Bool} (hov : MatSymm ov)
    (cubes : List Cuboid) (dic : ℕ → Finset ℕ) (hd : DicSymm dic) :
    DicSymm (cubes.foldl
      (fun d cube => get_bonds_local ov cube.big val uv d) dic) := by
  induction cubes generalizing dic with
  | nil => exact hd
  | cons c t ih => exact ih _ (get_bonds_local_symm hov hd)

/-- C1: for every molecule and every setting of the bond-detection
parameters (the valency/bond-size assignments standing for
`modified_properties`, `use_valency`, `divide_et_impera`, and the cuboid
parameters), the adjacency mapping returned by `get_bonds` is symmetric:
`B ∈ graph[A] ↔ A ∈ graph[B]`. -/
theorem C1_get_bonds_symmetric (mol : Molecule) (bond_size : ℕ → ℝ) (valency : ℕ → ℕ)
    (use_valency divide_et_impera : Bool) (mel de : ℝ) (A B : ℕ) :
    B ∈ get_bonds mol bond_size valency use_valency divide_et_impera mel de A ↔
      A ∈ get_bonds mol bond_size valency use_valency divide_et_impera mel de B := by
  have hov := molOv_symm mol bond_size
  have hempty : DicSymm (fun _ => (∅ : Finset ℕ)) := by
    intro a b; simp
  unfold get_bonds
  by_cases hdei : divide_et_impera = true
  · simp only [hdei, if_true]
    exact foldl_cubes_symm hov _ _ hempty B A
  · rw [Bool.not_eq_true] at hdei
    simp only [hdei, Bool.false_eq_true, if_false]
    exact get_bonds_local_symm hov hempty B A

/-- C2: with `use_valency` and `divide_et_impera` disabled, `B` is bonded
to `A` exactly when both keys are in the frame, `A ≠ B`, and the summed
bond radii strictly exceed the Euclidean distance (self-pairs being
excluded by the `-1` diagonal sentinel). -/
theorem C2_get_bonds_no_valency (mol : Molecule) (bond_size : ℕ → ℝ) (valency : ℕ → ℕ)
    (mel de : ℝ) (A B : ℕ) :
    B ∈ get_bonds mol bond_size valency false false mel de A ↔
      A ∈ mol.keys ∧ B ∈ mol.keys ∧ A ≠ B ∧
        0 < bond_size A + bond_size B - dist3 (posOf mol A) (posOf mol B) := by
  unfold get_bonds
  simp only [Bool.false_eq_true, if_false]
  rw [mem_get_bonds_local]
  have hfin : ovFinal (molOv mol bond_size) mol.keys valency false = ovInit (molOv mol bond_size) := by
    simp [ovFinal]
  rw [hfin]
  simp only [Finset.not_mem_empty, false_or]
  unfold ovInit molOv
  constructor
  · rintro ⟨hA, hB, hpos⟩
    by_cases hAB : A = B
    · rw [if_pos hAB] at hpos; norm_num at hpos
    · rw [if_neg hAB] at hpos; exact ⟨hA, hB, hAB, hpos⟩
  · rintro ⟨hA, hB, hAB, hpos⟩
    exact ⟨hA, hB, by rwa [if_neg hAB]⟩

/-- C10: `pick` returns a member of a non-empty set, and the set holds
exactly the same elements after the call (the `pop` is undone by the
`add`). -/
theorem C10_pick_member_and_frame (s : Finset ℕ) (h : s.Nonempty) :
    ∃ x, pick s = some (x, s) ∧ x ∈ s := by
  obtain ⟨a, ha⟩ := Finset.min_of_nonempty h
  have hmem : a ∈ s := Finset.mem_of_min ha
  refine ⟨a, ?_, hmem⟩
  unfold pick setPop
  rw [ha]
  simp [Finset.insert_erase hmem]

/-- Witness for C10 at the concrete set `{3, 5}`. -/
theorem C10_pick_witness :
    ({3, 5} : Finset ℕ).Nonempty ∧ ∃ x, pick {3, 5} = some (x, {3, 5}) ∧ x ∈ ({3, 5} : Finset ℕ) :=
  ⟨by decide, C10_pick_member_and_frame {3, 5} (by decide)⟩

lemma give_angle_nonneg (p q : Vec3R) : 0 ≤ give_angle p q := by
  unfold give_angle
  have h1 : (0:ℝ) ≤ 180 / Real.pi := div_nonneg (by norm_num) Real.pi_pos.le
  exact mul_nonneg h1 (Real.arccos_nonneg _)

lemma give_angle_le_180 (p q : Vec3R) : give_angle p q ≤ 180 := by
  unfold give_angle
  have h1 : (0:ℝ) ≤ 180 / Real.pi := div_nonneg (by norm_num) Real.pi_pos.le
  calc (180 / Real.pi) * Real.arccos (dot3 (normalize3 p) (normalize3 q))
      ≤ (180 / Real.pi) * Real.pi := by
        exact mul_le_mul_of_nonneg_left (Real.arccos_le_pi _) h1
    _ = 180 := div_mul_cancel₀ _ (ne_of_gt Real.pi_pos)

/-- C8: for any four atoms of a molecule, `dihedral_degrees` lies in
`[0°, 360°)`; it equals the unsigned angle between the two plane normals
when the triple product `AB ⬝ (n1 × n2)` is positive, `360°` minus that
angle when the triple product is not positive, and exactly `0` — the
sign-correction step being skipped — when the unsigned angle is exactly
`0`. -/
theorem C8_dihedral_degrees_range (mol : Molecule) (i b a d : ℕ) :
    0 ≤ dihedral_degrees mol i b a d ∧ dihedral_degrees mol i b a d < 360 ∧
    dihedral_degrees mol i b a d =
      (let AB := vsub (posOf mol b) (posOf mol a)
       let n1 := normalize3 (cross3 (vsub (posOf mol a) (posOf mol d)) AB)
       let n2 := normalize3 (cross3 AB (vsub (posOf mol i) (posOf mol b)))
       if give_angle n1 n2 = 0 then 0
       else if 0 < dot3 AB (cross3 n1 n2) then give_angle n1 n2
       else 360 - give_angle n1 n2) := by
  unfold dihedral_degrees dihedralVec
  set AB := vsub (posOf mol b) (posOf mol a) with hAB
  set n1 := normalize3 (cross3 (vsub (posOf mol a) (posOf mol d)) AB) with hn1
  set n2 := normalize3 (cross3 AB (vsub (posOf mol i) (posOf mol b))) with hn2
  have h0 := give_angle_nonneg n1 n2
  have h180 := give_angle_le_180 n1 n2
  by_cases hz : give_angle n1 n2 = 0
  · simp only [hz, ne_eq, not_true_eq_false, if_false, if_pos]
    norm_num
  · have hzpos : 0 < give_angle n1 n2 := lt_of_le_of_ne h0 (Ne.symm hz)
    simp only [ne_eq, hz, not_false_eq_true, if_true, if_neg hz]
    by_cases hsign : 0 < dot3 AB (cross3 n1 n2)
    · simp only [if_pos hsign]
      refine ⟨h0, ?_, rfl⟩
      linarith
    · simp only [if_neg hsign]
      refine ⟨by linarith, by linarith, rfl⟩

/-- C5: when every axis needs exactly one step, the partitioner returns a
single cuboid whose small and big sets are both the whole frame index,
and `get_bonds` with partitioning returns the same adjacency mapping as
`get_bonds` without partitioning under the same remaining parameters. -/
theorem C5_single_cell_partition_equiv (mol : Molecule) (bond_size : ℕ → ℝ)
    (valency : ℕ → ℕ) (use_valency : Bool) (mel de : ℝ)
    (hsteps : ∀ a : Fin 3, divideSteps mol mel a = 1) :
    _divide_et_impera mol mel de = [⟨![0, 0, 0], mol.keys, mol.keys⟩] ∧
    get_bonds mol bond_size valency use_valency true mel de =
      get_bonds mol bond_size valency use_valency false mel de := by
  have hc : _divide_et_impera mol mel de = [⟨![0, 0, 0], mol.keys, mol.keys⟩] := by
    unfold _divide_et_impera; rw [if_pos hsteps]
  refine ⟨hc, ?_⟩
  unfold get_bonds
  rw [hc]
  simp [List.foldl]

/-- Two nearby atoms: a molecule whose padded bounding box fits in one
`25 × 25 × 25` cuboid. -/
def mol5 : Molecule := ⟨[(0, ⟨0, 0, 0⟩), (1, ⟨1, 0, 0⟩)], by decide⟩

lemma mol5_steps : ∀ a : Fin 3, divideSteps mol5 25 a = 1 := by
  intro a
  fin_cases a <;>
    · simp only [divideSteps, axExtent, axMax, axMin, coordsOn, mol5, Vec3.nth,
        List.map_cons, List.map_nil, listMin, listMax, Fin.ext_iff]
      rw [Int.ceil_eq_iff]
      norm_num

/-- Witness for C5 at the concrete molecule `mol5`. -/
theorem C5_witness :
    (∀ a : Fin 3, divideSteps mol5 25 a = 1) ∧
    (_divide_et_impera mol5 25 6 = [⟨![0, 0, 0], mol5.keys, mol5.keys⟩] ∧
      get_bonds mol5 (fun _ => 1) (fun _ => 4) false true 25 6 =
        get_bonds mol5 (fun _ => 1) (fun _ => 4) false false 25 6) :=
  ⟨mol5_steps, C5_single_cell_partition_equiv mol5 (fun _ => 1) (fun _ => 4) false 25 6 mol5_steps⟩

lemma dist3_mol5 : dist3 (posOf mol5 0) (posOf mol5 1) = 1 := by
  have h0 : posOf mol5 0 = ⟨0, 0, 0⟩ := rfl
  have h1 : posOf mol5 1 = ⟨1, 0, 0⟩ := rfl
  rw [h0, h1]
  unfold dist3
  rw [show ((0:ℝ) - 1) ^ 2 + ((0:ℝ) - 0) ^ 2 + ((0:ℝ) - 0) ^ 2 = 1 by norm_num]
  exact Real.sqrt_one

/-- The bond dictionary of `mol5` with `get_bonds` defaults, for any
radius assignment making the two atoms overlap. -/
lemma mol5_bonds (bond_size : ℕ → ℝ) (valency : ℕ → ℕ) (hr : 1 < bond_size 0 + bond_size 1) :
    get_bonds mol5 bond_size valency false true 25 6 =
      fun k => if k = 0 then {1} else if k = 1 then {0} else ∅ := by
  have hc : _divide_et_impera mol5 25 6 = [⟨![0, 0, 0], mol5.keys, mol5.keys⟩] := by
    unfold _divide_et_impera; rw [if_pos mol5_steps]
  unfold get_bonds
  rw [if_pos rfl, hc]
  simp only [List.foldl_cons, List.foldl_nil]
  funext k
  ext j
  rw [mem_get_bonds_local]
  have hov : ovFinal (molOv mol5 bond_size) mol5.keys valency false =
      ovInit (molOv mol5 bond_size) := by simp [ovFinal]
  rw [hov]
  simp only [Finset.not_mem_empty, false_or]
  have hkeys : mol5.keys = [0, 1] := rfl
  rw [hkeys]
  have hov01 : 0 < ovInit (molOv mol5 bond_size) 0 1 := by
    unfold ovInit molOv
    rw [if_neg (by norm_num), dist3_mol5]
    linarith
  have hov10 : 0 < ovInit (molOv mol5 bond_size) 1 0 := by
    unfold ovInit molOv
    rw [if_neg (by norm_num), dist3_comm, dist3_mol5]
    linarith
  constructor
  · rintro ⟨hk, hj, hpos⟩
    simp only [List.mem_cons, List.not_mem_nil, or_false] at hk hj
    rcases hk with rfl | rfl <;> rcases hj with rfl | rfl
    · exfalso; unfold ovInit at hpos; rw [if_pos rfl] at hpos; norm_num at hpos
    · simp
    · simp
    · exfalso; unfold ovInit at hpos; rw [if_pos rfl] at hpos; norm_num at hpos
  · intro hj
    by_cases hk0 : k = 0
    · subst hk0
      rw [if_pos rfl] at hj
      rw [Finset.mem_singleton] at hj
      subst hj
      exact ⟨by simp, by simp, hov01⟩
    · by_cases hk1 : k = 1
      · subst hk1
        rw [if_neg (by norm_num), if_pos rfl] at hj
        rw [Finset.mem_singleton] at hj
        subst hj
        exact ⟨by simp, by simp, hov10⟩
      · rw [if_neg hk0, if_neg hk1] at hj
        exact absurd hj (Finset.not_mem_empty j)

/-- C6 (the code at its failing input): the public `connected_to` method
ignores the caller's exclusion list — line 359 passes `exclude=None` to
`_connected_to` — so with two bonded atoms `0 — 1` and `exclude = {1}`
the excluded atom `1` is still returned: the result is `{0, 1}`, where
the claim (and the method's docstring) require `{0}`. -/
theorem C6_connected_to_ignores_exclude (bond_size : ℕ → ℝ) (valency : ℕ → ℕ)
    (hr : 1 < bond_size 0 + bond_size 1) :
    connected_to mol5 bond_size valency 0 {1} = {0, 1} := by
  unfold connected_to
  rw [mol5_bonds bond_size valency hr]
  decide

/-- Witness for C6 at the concrete radius assignment `r ≡ 1`. -/
theorem C6_witness :
    (1:ℝ) < (fun _ : ℕ => (1:ℝ)) 0 + (fun _ : ℕ => (1:ℝ)) 1 ∧
      connected_to mol5 (fun _ => 1) (fun _ => 4) 0 {1} = {0, 1} :=
  ⟨by norm_num, C6_connected_to_ignores_exclude (fun _ => 1) (fun _ => 4) (by norm_num)⟩

lemma arbStep_pos {S : List ℕ} {val : ℕ → ℕ} {M : ℕ → ℕ → ℝ} {i a b : ℕ}
    (h : 0 < arbStep S val M i a b) : 0 < M a b := by
  unfold arbStep at h
  by_cases hc : (a = i ∧ b ∈ cutList M S i (val i)) ∨ (b = i ∧ a ∈ cutList M S i (val i))
  · rw [if_pos hc] at h; norm_num at h
  · rwa [if_neg hc] at h

lemma arbitrate_pos {S : List ℕ} {val : ℕ → ℕ} {l : List ℕ} :
    ∀ {M : ℕ → ℕ → ℝ} {a b : ℕ}, 0 < arbitrate S val M l a b → 0 < M a b := by
  induction l with
  | nil => intro M a b h; exact h
  | cons i t ih => intro M a b h; exact arbStep_pos (ih h)

lemma degreeOf_mono {M M' : ℕ → ℕ → ℝ} {S : List ℕ} {k : ℕ}
    (h : ∀ j, 0 < M' k j → 0 < M k j) : degreeOf M' S k ≤ degreeOf M S k := by
  unfold degreeOf bondedTo
  rw [← List.countP_eq_length_filter, ← List.countP_eq_length_filter]
  apply List.countP_mono_left
  intro j _ hj
  rw [decide_eq_true_eq] at hj ⊢
  exact h j hj

lemma mem_cutList {M : ℕ → ℕ → ℝ} {S : List ℕ} {i v j : ℕ} :
    j ∈ cutList M S i v ↔ j ∈ bondedTo M S i ∧ v ≤ rankAbove M S i j := by
  simp [cutList, List.mem_filter]

/-- The strict "sorted before" order on row `i`: higher overlap first,
ties by ascending key. -/
lemma rankAbove_lt_of_before {M : ℕ → ℕ → ℝ} {S : List ℕ} (hS : S.Nodup) {i j₁ j₂ : ℕ}
    (h1 : j₁ ∈ bondedTo M S i) (h2 : j₂ ∈ bondedTo M S i)
    (hab : M i j₁ < M i j₂ ∨ (M i j₂ = M i j₁ ∧ j₂ < j₁)) :
    rankAbove M S i j₂ < rankAbove M S i j₁ := by
  have hBnd : (bondedTo M S i).Nodup := hS.filter _
  unfold rankAbove
  have hsub : ∀ k ∈ bondedTo M S i,
      (decide (M i j₂ < M i k ∨ (M i k = M i j₂ ∧ k < j₂)) : Bool) = true →
      (decide (M i j₁ < M i k ∨ (M i k = M i j₁ ∧ k < j₁)) : Bool) = true := by
    intro k _ hk
    rw [decide_eq_true_eq] at hk ⊢
    rcases hk with hk | ⟨hk1, hk2⟩ <;> rcases hab with hab | ⟨hab1, hab2⟩
    · exact Or.inl (lt_trans hab hk)
    · exact Or.inl (hab1 ▸ hk)
    · exact Or.inl (hk1 ▸ hab)
    · exact Or.inr ⟨hk1.trans hab1, hk2.trans hab2⟩
  have hmem2 : (decide (M i j₁ < M i j₂ ∨ (M i j₂ = M i j₁ ∧ j₂ < j₁)) : Bool) = true := by
    rw [decide_eq_true_eq]; exact hab
  have hnot2 : ¬ ((decide (M i j₂ < M i j₂ ∨ (M i j₂ = M i j₂ ∧ j₂ < j₂)) : Bool) = true) := by
    rw [decide_eq_true_eq]
    rintro (h | ⟨-, h⟩)
    · exact lt_irrefl _ h
    · exact lt_irrefl _ h
  -- strict inclusion of the filtered lists, counted through their Finsets
  have hfs : ((bondedTo M S i).filter
      (fun k => decide (M i j₂ < M i k ∨ (M i k = M i j₂ ∧ k < j₂)))).toFinset ⊂
      ((bondedTo M S i).filter
      (fun k => decide (M i j₁ < M i k ∨ (M i k = M i j₁ ∧ k < j₁)))).toFinset := by
    constructor
    · intro k hk
      rw [List.mem_toFinset, List.mem_filter] at hk ⊢
      exact ⟨hk.1, hsub k hk.1 hk.2⟩
    · intro hcon
      have : j₂ ∈ ((bondedTo M S i).filter
          (fun k => decide (M i j₂ < M i k ∨ (M i k = M i j₂ ∧ k < j₂)))).toFinset := by
        apply hcon
        rw [List.mem_toFinset, List.mem_filter]
        exact ⟨h2, hmem2⟩
      rw [List.mem_toFinset, List.mem_filter] at this
      exact hnot2 this.2
  have hc := Finset.card_lt_card hfs
  rwa [List.toFinset_card_of_nodup (hBnd.filter _),
    List.toFinset_card_of_nodup (hBnd.filter _)] at hc

lemma rankAbove_le_of_mem {M : ℕ → ℕ → ℝ} {S : List ℕ} (hS : S.Nodup) {i j : ℕ}
    (hj : j ∈ bondedTo M S i) :
    rankAbove M S i j < degreeOf M S i := by
  have hBnd : (bondedTo M S i).Nodup := hS.filter _
  unfold rankAbove degreeOf
  have hne : ¬ ((decide (M i j < M i j ∨ (M i j = M i j ∧ j < j)) : Bool) = true) := by
    rw [decide_eq_true_eq]
    rintro (h | ⟨-, h⟩)
    · exact lt_irrefl _ h
    · exact lt_irrefl _ h
  have hss : ((bondedTo M S i).filter
      (fun k => decide (M i j < M i k ∨ (M i k = M i j ∧ k < j)))).toFinset ⊂
      (bondedTo M S i).toFinset := by
    constructor
    · intro k hk
      rw [List.mem_toFinset, List.mem_filter] at hk
      rw [List.mem_toFinset]
      exact hk.1
    · intro hcon
      have := hcon (List.mem_toFinset.mpr hj)
      rw [List.mem_toFinset, List.mem_filter] at this
      exact hne this.2
  have hc := Finset.card_lt_card hss
  rwa [List.toFinset_card_of_nodup (hBnd.filter _),
    List.toFinset_card_of_nodup hBnd] at hc

lemma bondedTo_arbStep_self {S : List ℕ} {val : ℕ → ℕ} {M : ℕ → ℕ → ℝ} {i : ℕ} :
    bondedTo (arbStep S val M i) S i =
      (bondedTo M S i).filter (fun j => decide (rankAbove M S i j < val i)) := by
  unfold bondedTo
  rw [List.filter_filter]
  apply List.filter_congr
  intro j hjS
  rw [← Bool.decide_and, decide_eq_decide]
  unfold arbStep
  constructor
  · intro hpos
    by_cases hc : (i = i ∧ j ∈ cutList M S i (val i)) ∨ (j = i ∧ i ∈ cutList M S i (val i))
    · rw [if_pos hc] at hpos; norm_num at hpos
    · rw [if_neg hc] at hpos
      push_neg at hc
      refine ⟨?_, hpos⟩
      by_contra hrank
      push_neg at hrank
      exact (hc.1 rfl) (mem_cutList.mpr ⟨mem_bondedTo.mpr ⟨hjS, hpos⟩, hrank⟩)
  · rintro ⟨hrank, hpos⟩
    have hc : ¬ ((i = i ∧ j ∈ cutList M S i (val i)) ∨ (j = i ∧ i ∈ cutList M S i (val i))) := by
      rintro (⟨-, hj⟩ | ⟨hji, hi⟩)
      · exact absurd (mem_cutList.mp hj).2 (by omega)
      · subst hji
        exact absurd (mem_cutList.mp hi).2 (by omega)
    rw [if_neg hc]
    exact hpos

lemma rank_injOn {M : ℕ → ℕ → ℝ} {S : List ℕ} (hS : S.Nodup) {i : ℕ} :
    ∀ a ∈ bondedTo M S i, ∀ b ∈ bondedTo M S i,
      rankAbove M S i a = rankAbove M S i b → a = b := by
  intro a ha b hb hr
  by_contra hne
  rcases lt_trichotomy (M i a) (M i b) with h | h | h
  · have := rankAbove_lt_of_before hS ha hb (Or.inl h)
    omega
  · rcases Nat.lt_or_ge a b with hab | hab
    · have := rankAbove_lt_of_before hS hb ha (Or.inr ⟨h, hab⟩)
      omega
    · have hab2 : b < a := by omega
      have := rankAbove_lt_of_before hS ha hb (Or.inr ⟨h.symm, hab2⟩)
      omega
  · have := rankAbove_lt_of_before hS hb ha (Or.inl h)
    omega

lemma card_filter_rank_lt {M : ℕ → ℕ → ℝ} {S : List ℕ} (hS : S.Nodup) {i : ℕ} (v : ℕ) :
    ((bondedTo M S i).filter (fun j => decide (rankAbove M S i j < v))).length ≤ v := by
  have hBnd : (bondedTo M S i).Nodup := hS.filter _
  rw [← List.toFinset_card_of_nodup (hBnd.filter _)]
  calc ((bondedTo M S i).filter
      (fun j => decide (rankAbove M S i j < v))).toFinset.card
      ≤ (Finset.range v).card := by
        apply Finset.card_le_card_of_injOn (rankAbove M S i)
        · intro a ha
          rw [List.mem_toFinset, List.mem_filter, decide_eq_true_eq] at ha
          rw [Finset.mem_range]
          exact ha.2
        · intro a ha b hb hr
          rw [Finset.mem_coe, List.mem_toFinset, List.mem_filter] at ha hb
          exact rank_injOn hS a ha.1 b hb.1 hr
    _ = v := Finset.card_range v

lemma degree_arbStep_self {S : List ℕ} {val : ℕ → ℕ} {M : ℕ → ℕ → ℝ} {i : ℕ}
    (hS : S.Nodup) : degreeOf (arbStep S val M i) S i ≤ val i := by
  unfold degreeOf
  rw [bondedTo_arbStep_self]
  exact card_filter_rank_lt hS (val i)

lemma degree_arbitrate_le {S : List ℕ} (hS : S.Nodup) (val : ℕ → ℕ) :
    ∀ (l : List ℕ) (M : ℕ → ℕ → ℝ) (i : ℕ), i ∈ l →
      degreeOf (arbitrate S val M l) S i ≤ val i := by
  intro l
  induction l with
  | nil => intro M i hi; cases hi
  | cons a t ih =>
    intro M i hi
    by_cases hit : i ∈ t
    · exact ih _ i hit
    · have hia : i = a := by
        rcases List.mem_cons.mp hi with h | h
        · exact h
        · exact absurd h hit
      subst hia
      have h1 : degreeOf (arbitrate S val (arbStep S val M i) t) S i ≤
          degreeOf (arbStep S val M i) S i :=
        degreeOf_mono (fun j hj => arbitrate_pos hj)
      exact le_trans h1 (degree_arbStep_self hS)

lemma get_bonds_local_apply (ov : ℕ → ℕ → ℝ) (S : List ℕ) (val : ℕ → ℕ) (uv : Bool)
    (dic : ℕ → Finset ℕ) (k : ℕ) :
    get_bonds_local ov S val uv dic k =
      dic k ∪ (if k ∈ S then (bondedTo (ovFinal ov S val uv) S k).toFinset else ∅) := rfl

/-- The degree bound of valency arbitration (one shot, no partitioning):
every atom's final degree is at most its valency. -/
lemma get_bonds_valency_card (mol : Molecule) (bond_size : ℕ → ℝ) (valency : ℕ → ℕ)
    (mel de : ℝ) (k : ℕ) :
    (get_bonds mol bond_size valency true false mel de k).card ≤ valency k := by
  unfold get_bonds
  simp only [Bool.false_eq_true, if_false]
  rw [get_bonds_local_apply]
  by_cases hk : k ∈ mol.keys
  · have hBnd : (bondedTo (ovFinal (molOv mol bond_size) mol.keys valency true)
        mol.keys k).Nodup := by
      unfold bondedTo
      exact mol.nodup.filter _
    rw [if_pos hk, Finset.empty_union, List.toFinset_card_of_nodup hBnd]
    have hfin : ovFinal (molOv mol bond_size) mol.keys valency true =
        arbitrate mol.keys valency (ovInit (molOv mol bond_size))
          (oversatList (ovInit (molOv mol bond_size)) mol.keys valency) := by
      simp [ovFinal]
    rw [hfin]
    by_cases hover : k ∈ oversatList (ovInit (molOv mol bond_size)) mol.keys valency
    · exact degree_arbitrate_le mol.nodup valency _ _ k hover
    · have hdeg : degreeOf (ovInit (molOv mol bond_size)) mol.keys k ≤ valency k := by
        unfold oversatList at hover
        rw [List.mem_filter, decide_eq_true_eq] at hover
        push_neg at hover
        exact hover hk
      exact le_trans (degreeOf_mono (fun j hj => arbitrate_pos hj)) hdeg
  · rw [if_neg hk, Finset.empty_union]
    simp

/-- The edges cut while processing the oversaturated atoms of `l`, all
measured against the initial matrix `M`: `(a, b)` was cut iff some
processed atom `i` cut it as one of its lowest-overlap bonds. -/
def cutsOf (M : ℕ → ℕ → ℝ) (S : List ℕ) (val : ℕ → ℕ) (l : List ℕ) (a b : ℕ) : Prop :=
  ∃ i ∈ l, (a = i ∧ b ∈ cutList M S i (val i)) ∨ (b = i ∧ a ∈ cutList M S i (val i))

lemma bondedTo_congr_row {M M' : ℕ → ℕ → ℝ} {S : List ℕ} {i : ℕ}
    (h : ∀ j, M i j = M' i j) : bondedTo M S i = bondedTo M' S i := by
  unfold bondedTo
  apply List.filter_congr
  intro j _
  rw [h j]

lemma rankAbove_congr_row {M M' : ℕ → ℕ → ℝ} {S : List ℕ} {i j : ℕ}
    (h : ∀ j, M i j = M' i j) : rankAbove M S i j = rankAbove M' S i j := by
  unfold rankAbove
  rw [bondedTo_congr_row h]
  congr 1
  apply List.filter_congr
  intro k _
  rw [h k, h j]

lemma cutList_congr_row {M M' : ℕ → ℕ → ℝ} {S : List ℕ} {i v : ℕ}
    (h : ∀ j, M i j = M' i j) : cutList M S i v = cutList M' S i v := by
  unfold cutList
  rw [bondedTo_congr_row h]
  apply List.filter_congr
  intro j _
  rw [rankAbove_congr_row h]

/-- The arbitration loop under the no-adjacent-oversaturated-atoms
hypothesis: since no two processed atoms share a candidate bond, the cut
of every atom equals its cut against the *initial* matrix, and the final
matrix is the initial one with exactly those cuts stamped to `-1`.
Stated with explicit disjunctions (`C` holds and the entry is `-1`, or
`C` fails and the entry is untouched) to stay independent of
decidability instances. -/
lemma arbitrate_cut_char (S : List ℕ) (val : ℕ → ℕ) (M0 : ℕ → ℕ → ℝ) :
    ∀ (l : List ℕ), l.Nodup →
    (∀ i ∈ l, ∀ j ∈ l, i ≠ j → ¬ 0 < M0 i j) →
    ∀ (C : ℕ → ℕ → Prop) (M : ℕ → ℕ → ℝ),
    (∀ a b, (C a b ∧ M a b = -1) ∨ (¬ C a b ∧ M a b = M0 a b)) →
    (∀ i ∈ l, ∀ j, ¬ C i j) →
    ∀ a b, ((C a b ∨ cutsOf M0 S val l a b) ∧ arbitrate S val M l a b = -1) ∨
      (¬ (C a b ∨ cutsOf M0 S val l a b) ∧ arbitrate S val M l a b = M0 a b) := by
  intro l
  induction l with
  | nil =>
    intro _ _ C M hM hrow a b
    have hcuts : ¬ cutsOf M0 S val [] a b := by simp [cutsOf]
    rcases hM a b with ⟨hC, hval⟩ | ⟨hC, hval⟩
    · exact Or.inl ⟨Or.inl hC, hval⟩
    · refine Or.inr ⟨?_, hval⟩
      rintro (h | h)
      · exact hC h
      · exact hcuts h
  | cons hd t ih =>
    intro hnd hadj C M hM hrow a b
    rw [List.nodup_cons] at hnd
    have hrowhd : ∀ j, M hd j = M0 hd j := by
      intro j
      rcases hM hd j with ⟨hC, -⟩ | ⟨-, hval⟩
      · exact absurd hC (hrow hd (List.mem_cons_self hd t) j)
      · exact hval
    have hcuthd : cutList M S hd (val hd) = cutList M0 S hd (val hd) :=
      cutList_congr_row hrowhd
    have hM' : ∀ a b,
        (((C a b ∨ ((a = hd ∧ b ∈ cutList M0 S hd (val hd)) ∨
            (b = hd ∧ a ∈ cutList M0 S hd (val hd)))) ∧ arbStep S val M hd a b = -1) ∨
         (¬ (C a b ∨ ((a = hd ∧ b ∈ cutList M0 S hd (val hd)) ∨
            (b = hd ∧ a ∈ cutList M0 S hd (val hd)))) ∧ arbStep S val M hd a b = M0 a b)) := by
      intro a b
      unfold arbStep
      rw [hcuthd]
      by_cases hc : (a = hd ∧ b ∈ cutList M0 S hd (val hd)) ∨
          (b = hd ∧ a ∈ cutList M0 S hd (val hd))
      · exact Or.inl ⟨Or.inr hc, by rw [if_pos hc]⟩
      · rw [if_neg hc]
        rcases hM a b with ⟨hC, hval⟩ | ⟨hC, hval⟩
        · exact Or.inl ⟨Or.inl hC, hval⟩
        · refine Or.inr ⟨?_, hval⟩
          rintro (h | h)
          · exact hC h
          · exact hc h
    have hrow' : ∀ i ∈ t, ∀ j, ¬ (C i j ∨ ((i = hd ∧ j ∈ cutList M0 S hd (val hd)) ∨
        (j = hd ∧ i ∈ cutList M0 S hd (val hd)))) := by
      intro i hit j
      rintro (hC | ⟨hih, -⟩ | ⟨-, hi⟩)
      · exact hrow i (List.mem_cons_of_mem hd hit) j hC
      · exact hnd.1 (hih ▸ hit)
      · have hpos : 0 < M0 hd i := (mem_bondedTo.mp (mem_cutList.mp hi).1).2
        have hne : hd ≠ i := by
          rintro rfl
          exact hnd.1 hit
        exact hadj hd (List.mem_cons_self hd t) i (List.mem_cons_of_mem hd hit) hne hpos
    have hres := ih hnd.2
      (fun i hi j hj => hadj i (List.mem_cons_of_mem hd hi) j (List.mem_cons_of_mem hd hj))
      _ (arbStep S val M hd) hM' hrow' a b
    have hshuffle : ((C a b ∨ ((a = hd ∧ b ∈ cutList M0 S hd (val hd)) ∨
        (b = hd ∧ a ∈ cutList M0 S hd (val hd)))) ∨ cutsOf M0 S val t a b) ↔
        (C a b ∨ cutsOf M0 S val (hd :: t) a b) := by
      simp only [cutsOf, List.mem_cons]
      constructor
      · rintro ((hC | hhd) | ⟨i, hi, hcut⟩)
        · exact Or.inl hC
        · exact Or.inr ⟨hd, Or.inl rfl, hhd⟩
        · exact Or.inr ⟨i, Or.inr hi, hcut⟩
      · rintro (hC | ⟨i, hi | hi, hcut⟩)
        · exact Or.inl (Or.inl hC)
        · exact Or.inl (Or.inr (hi ▸ hcut))
        · exact Or.inr ⟨i, hi, hcut⟩
    rw [show arbitrate S val M (hd :: t) =
      arbitrate S val (arbStep S val M hd) t from rfl]
    rcases hres with ⟨hcond, hval⟩ | ⟨hcond, hval⟩
    · exact Or.inl ⟨hshuffle.mp hcond, hval⟩
    · exact Or.inr ⟨fun h => hcond (hshuffle.mpr h), hval⟩

/-- The final matrix of `get_bonds` with valency arbitration and no
partitioning, under the no-adjacent-oversaturated hypothesis. -/
lemma ovFinal_cut_char (mol : Molecule) (bond_size : ℕ → ℝ) (valency : ℕ → ℕ)
    (hadj : ∀ i ∈ oversatList (ovInit (molOv mol bond_size)) mol.keys valency,
            ∀ j ∈ oversatList (ovInit (molOv mol bond_size)) mol.keys valency,
            i ≠ j → ¬ 0 < ovInit (molOv mol bond_size) i j) :
    ∀ a b, (cutsOf (ovInit (molOv mol bond_size)) mol.keys valency
          (oversatList (ovInit (molOv mol bond_size)) mol.keys valency) a b ∧
        ovFinal (molOv mol bond_size) mol.keys valency true a b = -1) ∨
      (¬ cutsOf (ovInit (molOv mol bond_size)) mol.keys valency
          (oversatList (ovInit (molOv mol bond_size)) mol.keys valency) a b ∧
        ovFinal (molOv mol bond_size) mol.keys valency true a b =
          ovInit (molOv mol bond_size) a b) := by
  intro a b
  have hnd : (oversatList (ovInit (molOv mol bond_size)) mol.keys valency).Nodup := by
    unfold oversatList
    exact mol.nodup.filter _
  have h := arbitrate_cut_char mol.keys valency (ovInit (molOv mol bond_size)) _ hnd hadj
    (fun _ _ => False) (ovInit (molOv mol bond_size))
    (fun a b => Or.inr ⟨not_false, rfl⟩) (fun i _ j hC => hC) a b
  have hfin : ovFinal (molOv mol bond_size) mol.keys valency true =
      arbitrate mol.keys valency (ovInit (molOv mol bond_size))
        (oversatList (ovInit (molOv mol bond_size)) mol.keys valency) := by
    simp [ovFinal]
  rw [hfin]
  rcases h with ⟨hcond, hval⟩ | ⟨hcond, hval⟩
  · rcases hcond with hF | hcuts
    · exact absurd hF not_false
    · exact Or.inl ⟨hcuts, hval⟩
  · exact Or.inr ⟨fun hcuts => hcond (Or.inr hcuts), hval⟩

lemma rank_image_eq {M : ℕ → ℕ → ℝ} {S : List ℕ} (hS : S.Nodup) (i : ℕ) :
    ((bondedTo M S i).toFinset).image (rankAbove M S i) =
      Finset.range (degreeOf M S i) := by
  have hBnd : (bondedTo M S i).Nodup := hS.filter _
  apply Finset.eq_of_subset_of_card_le
  · intro r hr
    rw [Finset.mem_image] at hr
    obtain ⟨j, hj, rfl⟩ := hr
    rw [List.mem_toFinset] at hj
    rw [Finset.mem_range]
    exact rankAbove_le_of_mem hS hj
  · rw [Finset.card_range, Finset.card_image_of_injOn]
    · rw [List.toFinset_card_of_nodup hBnd]
      exact le_of_eq rfl
    · intro a ha b hb hr
      rw [Finset.mem_coe, List.mem_toFinset] at ha hb
      exact rank_injOn hS a ha b hb hr

lemma cutList_length_add {M : ℕ → ℕ → ℝ} {S : List ℕ} (hS : S.Nodup) {i v : ℕ}
    (hv : v ≤ degreeOf M S i) :
    (cutList M S i v).length + v = degreeOf M S i := by
  have hBnd : (bondedTo M S i).Nodup := hS.filter _
  have hcnd : (cutList M S i v).Nodup := by
    unfold cutList
    exact hBnd.filter _
  have himg : ((bondedTo M S i).toFinset.filter
      (fun j => v ≤ rankAbove M S i j)).image (rankAbove M S i) =
      (Finset.range (degreeOf M S i)).filter (fun r => v ≤ r) := by
    apply Finset.ext
    intro r
    rw [Finset.mem_image, Finset.mem_filter, Finset.mem_range]
    constructor
    · rintro ⟨j, hj, rfl⟩
      rw [Finset.mem_filter, List.mem_toFinset] at hj
      exact ⟨rankAbove_le_of_mem hS hj.1, hj.2⟩
    · rintro ⟨hr, hvr⟩
      have : r ∈ ((bondedTo M S i).toFinset).image (rankAbove M S i) := by
        rw [rank_image_eq hS i, Finset.mem_range]
        exact hr
      rw [Finset.mem_image] at this
      obtain ⟨j, hj, rfl⟩ := this
      refine ⟨j, ?_, rfl⟩
      rw [Finset.mem_filter]
      exact ⟨hj, hvr⟩
  have hcard : (cutList M S i v).length =
      ((Finset.range (degreeOf M S i)).filter (fun r => v ≤ r)).card := by
    rw [← himg, Finset.card_image_of_injOn]
    · rw [← List.toFinset_card_of_nodup hcnd]
      congr 1
      apply Finset.ext
      intro j
      rw [List.mem_toFinset, Finset.mem_filter, List.mem_toFinset, mem_cutList]
    · intro a ha b hb hr
      rw [Finset.mem_coe, Finset.mem_filter, List.mem_toFinset] at ha hb
      exact rank_injOn hS a ha.1 b hb.1 hr
  have hfoo : (Finset.range (degreeOf M S i)).filter (fun r => v ≤ r) =
      Finset.range (degreeOf M S i) \ Finset.range v := by
    apply Finset.ext
    intro r
    rw [Finset.mem_filter, Finset.mem_sdiff, Finset.mem_range, Finset.mem_range]
    omega
  rw [hcard, hfoo, Finset.card_sdiff (Finset.range_subset.mpr hv), Finset.card_range,
    Finset.card_range]
  omega

lemma cutList_lowest {M : ℕ → ℕ → ℝ} {S : List ℕ} (hS : S.Nodup) {i v : ℕ}
    (hdist : ∀ j ∈ bondedTo M S i, ∀ k ∈ bondedTo M S i, j ≠ k → M i j ≠ M i k)
    {j k : ℕ} (hj : j ∈ cutList M S i v) (hk : k ∈ bondedTo M S i)
    (hknot : k ∉ cutList M S i v) : M i j < M i k := by
  obtain ⟨hjB, hjr⟩ := mem_cutList.mp hj
  have hkr : rankAbove M S i k < v := by
    by_contra h
    push_neg at h
    exact hknot (mem_cutList.mpr ⟨hk, h⟩)
  have hne : j ≠ k := by
    rintro rfl
    omega
  rcases lt_trichotomy (M i j) (M i k) with h | h | h
  · exact h
  · exact absurd h (hdist j hjB k hk hne)
  · exfalso
    have := rankAbove_lt_of_before hS hk hjB (Or.inl h)
    omega

/-- C3 amended: with `use_valency` enabled and partitioning disabled,
(1) every atom's degree in the returned adjacency is at most its
configured valency — unconditionally; and (2) under the additional
hypothesis, forced by the counterexample, that no candidate bond joins
two initially oversaturated atoms (plus the claim's no-ties hypothesis),
the removed edges are exactly the per-atom excess edges of lowest
overlap: an initially positive pair is missing from the result iff some
oversaturated atom cut it, each oversaturated atom cuts exactly
`actual_degree - valency` edges, and every cut edge of an atom has
strictly smaller overlap than every kept candidate edge of that atom
(cuts are applied to both endpoints, the graph staying symmetric). -/
theorem C3_amended_valency_arbitration (mol : Molecule) (bond_size : ℕ → ℝ)
    (valency : ℕ → ℕ) (mel de : ℝ) :
    (∀ k, (get_bonds mol bond_size valency true false mel de k).card ≤ valency k) ∧
    ((∀ i ∈ mol.keys, ∀ j ∈ bondedTo (ovInit (molOv mol bond_size)) mol.keys i,
        ∀ k ∈ bondedTo (ovInit (molOv mol bond_size)) mol.keys i, j ≠ k →
          ovInit (molOv mol bond_size) i j ≠ ovInit (molOv mol bond_size) i k) →
     (∀ i ∈ oversatList (ovInit (molOv mol bond_size)) mol.keys valency,
        ∀ j ∈ oversatList (ovInit (molOv mol bond_size)) mol.keys valency,
          i ≠ j → ¬ 0 < ovInit (molOv mol bond_size) i j) →
     (∀ a b, (a ∈ mol.keys ∧ b ∈ mol.keys ∧ 0 < ovInit (molOv mol bond_size) a b ∧
          b ∉ get_bonds mol bond_size valency true false mel de a) ↔
        cutsOf (ovInit (molOv mol bond_size)) mol.keys valency
          (oversatList (ovInit (molOv mol bond_size)) mol.keys valency) a b) ∧
     (∀ i ∈ oversatList (ovInit (molOv mol bond_size)) mol.keys valency,
        (cutList (ovInit (molOv mol bond_size)) mol.keys i (valency i)).length +
          valency i = degreeOf (ovInit (molOv mol bond_size)) mol.keys i) ∧
     (∀ i ∈ oversatList (ovInit (molOv mol bond_size)) mol.keys valency,
        ∀ j ∈ cutList (ovInit (molOv mol bond_size)) mol.keys i (valency i),
        ∀ k ∈ bondedTo (ovInit (molOv mol bond_size)) mol.keys i,
          k ∉ cutList (ovInit (molOv mol bond_size)) mol.keys i (valency i) →
          ovInit (molOv mol bond_size) i j < ovInit (molOv mol bond_size) i k)) := by
  refine ⟨get_bonds_valency_card mol bond_size valency mel de, ?_⟩
  intro hdist hadj
  have hchar := ovFinal_cut_char mol bond_size valency hadj
  have hover_sub : ∀ i ∈ oversatList (ovInit (molOv mol bond_size)) mol.keys valency,
      i ∈ mol.keys ∧ valency i < degreeOf (ovInit (molOv mol bond_size)) mol.keys i := by
    intro i hi
    unfold oversatList at hi
    rw [List.mem_filter, decide_eq_true_eq] at hi
    exact hi
  have hmem : ∀ a b, b ∈ get_bonds mol bond_size valency true false mel de a ↔
      (a ∈ mol.keys ∧ b ∈ mol.keys ∧
        0 < ovFinal (molOv mol bond_size) mol.keys valency true a b) := by
    intro a b
    unfold get_bonds
    simp only [Bool.false_eq_true, if_false]
    rw [mem_get_bonds_local]
    simp only [Finset.not_mem_empty, false_or]
  refine ⟨?_, ?_, ?_⟩
  · intro a b
    constructor
    · rintro ⟨haS, hbS, hpos0, hnot⟩
      rcases hchar a b with ⟨hcuts, -⟩ | ⟨-, hval⟩
      · exact hcuts
      · exact absurd ((hmem a b).mpr ⟨haS, hbS, by rwa [hval]⟩) hnot
    · intro hcuts
      have hsymm : MatSymm (ovInit (molOv mol bond_size)) :=
        ovInit_symm (molOv_symm mol bond_size)
      obtain ⟨i, hi, hcase⟩ := hcuts
      have hnotg : b ∉ get_bonds mol bond_size valency true false mel de a := by
        rcases hchar a b with ⟨-, hval⟩ | ⟨hncuts, -⟩
        · intro hbg
          have := ((hmem a b).mp hbg).2.2
          rw [hval] at this
          norm_num at this
        · exact absurd ⟨i, hi, hcase⟩ hncuts
      rcases hcase with ⟨rfl, hb⟩ | ⟨rfl, ha⟩
      · have hbB := (mem_cutList.mp hb).1
        rw [mem_bondedTo] at hbB
        exact ⟨(hover_sub a hi).1, hbB.1, hbB.2, hnotg⟩
      · have haB := (mem_cutList.mp ha).1
        rw [mem_bondedTo] at haB
        exact ⟨haB.1, (hover_sub b hi).1, by rw [hsymm]; exact haB.2, hnotg⟩
  · intro i hi
    exact cutList_length_add mol.nodup (hover_sub i hi).2.le
  · intro i hi j hj k hk hknot
    exact cutList_lowest mol.nodup (hdist i (hover_sub i hi).1) hj hk hknot

/-- Membership in a `get_bonds` result without partitioning. -/
lemma mem_get_bonds_nodiv (mol : Molecule) (bond_size : ℕ → ℝ) (valency : ℕ → ℕ)
    (uv : Bool) (mel de : ℝ) (a b : ℕ) :
    b ∈ get_bonds mol bond_size valency uv false mel de a ↔
      (a ∈ mol.keys ∧ b ∈ mol.keys ∧
        0 < ovFinal (molOv mol bond_size) mol.keys valency uv a b) := by
  unfold get_bonds
  simp only [Bool.false_eq_true, if_false]
  rw [mem_get_bonds_local]
  simp only [Finset.not_mem_empty, false_or]

/-- Three collinear atoms `0 — 1 — 2` with pair distances 1, 1.2 and 2.2. -/
def mol3 : Molecule := ⟨[(0, ⟨0, 0, 0⟩), (1, ⟨1, 0, 0⟩), (2, ⟨2.2, 0, 0⟩)], by decide⟩

/-- Radii chosen to make the overlaps of the candidate bonds `0-1` and
`1-2` equal `0.2` and `0.1`, and pair `0-2` a non-bond. -/
noncomputable def r3 : ℕ → ℝ := fun i => if i = 0 then 0.7 else if i = 1 then 0.5 else 0.8

/-- Valencies making atoms `0` (degree 1 > 0) and `1` (degree 2 > 1)
oversaturated. -/
def v3 : ℕ → ℕ := fun i => if i = 0 then 0 else if i = 1 then 1 else 4

/-- Valencies making only atom `1` oversaturated. -/
def v3w : ℕ → ℕ := fun i => if i = 1 then 1 else 4

lemma mol3_keys : mol3.keys = [0, 1, 2] := rfl

lemma mol3_d01 : dist3 (posOf mol3 0) (posOf mol3 1) = 1 := by
  show dist3 ⟨0, 0, 0⟩ ⟨1, 0, 0⟩ = 1
  unfold dist3
  rw [show ((0:ℝ) - 1) ^ 2 + ((0:ℝ) - 0) ^ 2 + ((0:ℝ) - 0) ^ 2 = 1 by norm_num]
  exact Real.sqrt_one

lemma mol3_d12 : dist3 (posOf mol3 1) (posOf mol3 2) = 1.2 := by
  show dist3 ⟨1, 0, 0⟩ ⟨2.2, 0, 0⟩ = 1.2
  unfold dist3
  rw [show ((1:ℝ) - 2.2) ^ 2 + ((0:ℝ) - 0) ^ 2 + ((0:ℝ) - 0) ^ 2 = (1.2 : ℝ) ^ 2 by norm_num]
  exact Real.sqrt_sq (by norm_num)

lemma mol3_d02 : dist3 (posOf mol3 0) (posOf mol3 2) = 2.2 := by
  show dist3 ⟨0, 0, 0⟩ ⟨2.2, 0, 0⟩ = 2.2
  unfold dist3
  rw [show ((0:ℝ) - 2.2) ^ 2 + ((0:ℝ) - 0) ^ 2 + ((0:ℝ) - 0) ^ 2 = (2.2 : ℝ) ^ 2 by norm_num]
  exact Real.sqrt_sq (by norm_num)

lemma M3_00 : ovInit (molOv mol3 r3) 0 0 = -1 := by
  unfold ovInit; rw [if_pos rfl]

lemma M3_11 : ovInit (molOv mol3 r3) 1 1 = -1 := by
  unfold ovInit; rw [if_pos rfl]

lemma M3_22 : ovInit (molOv mol3 r3) 2 2 = -1 := by
  unfold ovInit; rw [if_pos rfl]

lemma M3_01 : ovInit (molOv mol3 r3) 0 1 = 0.2 := by
  unfold ovInit molOv
  rw [if_neg (by norm_num), mol3_d01]
  norm_num [r3]

lemma M3_10 : ovInit (molOv mol3 r3) 1 0 = 0.2 := by
  unfold ovInit molOv
  rw [if_neg (by norm_num), dist3_comm, mol3_d01]
  norm_num [r3]

lemma M3_12 : ovInit (molOv mol3 r3) 1 2 = 0.1 := by
  unfold ovInit molOv
  rw [if_neg (by norm_num), mol3_d12]
  norm_num [r3]

lemma M3_21 : ovInit (molOv mol3 r3) 2 1 = 0.1 := by
  unfold ovInit molOv
  rw [if_neg (by norm_num), dist3_comm, mol3_d12]
  norm_num [r3]

lemma M3_02 : ovInit (molOv mol3 r3) 0 2 = -0.7 := by
  unfold ovInit molOv
  rw [if_neg (by norm_num), mol3_d02]
  norm_num [r3]

lemma M3_20 : ovInit (molOv mol3 r3) 2 0 = -0.7 := by
  unfold ovInit molOv
  rw [if_neg (by norm_num), dist3_comm, mol3_d02]
  norm_num [r3]

lemma mol3_B0 : bondedTo (ovInit (molOv mol3 r3)) mol3.keys 0 = [1] := by
  unfold bondedTo
  rw [mol3_keys]
  have d0 : (decide (0 < ovInit (molOv mol3 r3) 0 0) : Bool) = false := by
    rw [decide_eq_false_iff_not, M3_00]; norm_num
  have d1 : (decide (0 < ovInit (molOv mol3 r3) 0 1) : Bool) = true := by
    rw [decide_eq_true_eq, M3_01]; norm_num
  have d2 : (decide (0 < ovInit (molOv mol3 r3) 0 2) : Bool) = false := by
    rw [decide_eq_false_iff_not, M3_02]; norm_num
  simp [List.filter, d0, d1, d2]

lemma mol3_B1 : bondedTo (ovInit (molOv mol3 r3)) mol3.keys 1 = [0, 2] := by
  unfold bondedTo
  rw [mol3_keys]
  have d0 : (decide (0 < ovInit (molOv mol3 r3) 1 0) : Bool) = true := by
    rw [decide_eq_true_eq, M3_10]; norm_num
  have d1 : (decide (0 < ovInit (molOv mol3 r3) 1 1) : Bool) = false := by
    rw [decide_eq_false_iff_not, M3_11]; norm_num
  have d2 : (decide (0 < ovInit (molOv mol3 r3) 1 2) : Bool) = true := by
    rw [decide_eq_true_eq, M3_12]; norm_num
  simp [List.filter, d0, d1, d2]

lemma mol3_B2 : bondedTo (ovInit (molOv mol3 r3)) mol3.keys 2 = [1] := by
  unfold bondedTo
  rw [mol3_keys]
  have d0 : (decide (0 < ovInit (molOv mol3 r3) 2 0) : Bool) = false := by
    rw [decide_eq_false_iff_not, M3_20]; norm_num
  have d1 : (decide (0 < ovInit (molOv mol3 r3) 2 1) : Bool) = true := by
    rw [decide_eq_true_eq, M3_21]; norm_num
  have d2 : (decide (0 < ovInit (molOv mol3 r3) 2 2) : Bool) = false := by
    rw [decide_eq_false_iff_not, M3_22]; norm_num
  simp [List.filter, d0, d1, d2]

lemma mol3_deg0 : degreeOf (ovInit (molOv mol3 r3)) mol3.keys 0 = 1 := by
  unfold degreeOf; rw [mol3_B0]; rfl

lemma mol3_deg1 : degreeOf (ovInit (molOv mol3 r3)) mol3.keys 1 = 2 := by
  unfold degreeOf; rw [mol3_B1]; rfl

lemma mol3_deg2 : degreeOf (ovInit (molOv mol3 r3)) mol3.keys 2 = 1 := by
  unfold degreeOf; rw [mol3_B2]; rfl

lemma arbStep_apply (S : List ℕ) (val : ℕ → ℕ) (M : ℕ → ℕ → ℝ) (i a b : ℕ) :
    arbStep S val M i a b =
      if (a = i ∧ b ∈ cutList M S i (val i)) ∨ (b = i ∧ a ∈ cutList M S i (val i))
      then -1 else M a b := rfl

lemma mol3_rank01 : rankAbove (ovInit (molOv mol3 r3)) mol3.keys 0 1 = 0 := by
  unfold rankAbove
  rw [mol3_B0]
  have d : (decide (ovInit (molOv mol3 r3) 0 1 < ovInit (molOv mol3 r3) 0 1 ∨
      (ovInit (molOv mol3 r3) 0 1 = ovInit (molOv mol3 r3) 0 1 ∧ 1 < 1)) : Bool) = false := by
    rw [decide_eq_false_iff_not]
    rintro (h | ⟨-, h⟩)
    · exact lt_irrefl _ h
    · exact lt_irrefl _ h
  simp [List.filter, d]

lemma mol3_cut0 : cutList (ovInit (molOv mol3 r3)) mol3.keys 0 (v3 0) = [1] := by
  unfold cutList
  rw [mol3_B0]
  have d : (decide (v3 0 ≤ rankAbove (ovInit (molOv mol3 r3)) mol3.keys 0 1) : Bool) = true := by
    rw [decide_eq_true_eq, mol3_rank01]
    norm_num [v3]
  simp [List.filter, d]

lemma mol3_M1_10 :
    arbStep mol3.keys v3 (ovInit (molOv mol3 r3)) 0 1 0 = -1 := by
  unfold arbStep
  rw [mol3_cut0]
  rw [if_pos (Or.inr ⟨rfl, by simp⟩)]

lemma mol3_M1_11 :
    arbStep mol3.keys v3 (ovInit (molOv mol3 r3)) 0 1 1 = -1 := by
  unfold arbStep
  rw [if_neg ?_, M3_11]
  rintro (⟨h, -⟩ | ⟨h, -⟩) <;> norm_num at h

lemma mol3_M1_12 :
    arbStep mol3.keys v3 (ovInit (molOv mol3 r3)) 0 1 2 = 0.1 := by
  unfold arbStep
  rw [if_neg ?_, M3_12]
  rintro (⟨h, -⟩ | ⟨h, -⟩) <;> norm_num at h

lemma mol3_B1_after : bondedTo (arbStep mol3.keys v3 (ovInit (molOv mol3 r3)) 0)
    mol3.keys 1 = [2] := by
  unfold bondedTo
  rw [mol3_keys]
  have d0 : (decide (0 < arbStep mol3.keys v3 (ovInit (molOv mol3 r3)) 0 1 0) : Bool) = false := by
    rw [decide_eq_false_iff_not, mol3_M1_10]; norm_num
  have d1 : (decide (0 < arbStep mol3.keys v3 (ovInit (molOv mol3 r3)) 0 1 1) : Bool) = false := by
    rw [decide_eq_false_iff_not, mol3_M1_11]; norm_num
  have d2 : (decide (0 < arbStep mol3.keys v3 (ovInit (molOv mol3 r3)) 0 1 2) : Bool) = true := by
    rw [decide_eq_true_eq, mol3_M1_12]; norm_num
  rw [mol3_keys] at d0 d1 d2
  simp [List.filter, d0, d1, d2]

lemma mol3_rank1_after :
    rankAbove (arbStep mol3.keys v3 (ovInit (molOv mol3 r3)) 0) mol3.keys 1 2 = 0 := by
  unfold rankAbove
  rw [mol3_B1_after]
  have d : (decide (arbStep mol3.keys v3 (ovInit (molOv mol3 r3)) 0 1 2 <
      arbStep mol3.keys v3 (ovInit (molOv mol3 r3)) 0 1 2 ∨
      (arbStep mol3.keys v3 (ovInit (molOv mol3 r3)) 0 1 2 =
        arbStep mol3.keys v3 (ovInit (molOv mol3 r3)) 0 1 2 ∧ 2 < 2)) : Bool) = false := by
    rw [decide_eq_false_iff_not]
    rintro (h | ⟨-, h⟩)
    · exact lt_irrefl _ h
    · exact lt_irrefl _ h
  simp [List.filter, d]

lemma mol3_cut1 : cutList (arbStep mol3.keys v3 (ovInit (molOv mol3 r3)) 0)
    mol3.keys 1 (v3 1) = [] := by
  unfold cutList
  rw [mol3_B1_after]
  have d : (decide (v3 1 ≤ rankAbove (arbStep mol3.keys v3 (ovInit (molOv mol3 r3)) 0)
      mol3.keys 1 2) : Bool) = false := by
    rw [decide_eq_false_iff_not, mol3_rank1_after]
    norm_num [v3]
  simp [List.filter, d]

lemma mol3_over : oversatList (ovInit (molOv mol3 r3)) mol3.keys v3 = [0, 1] := by
  unfold oversatList
  rw [mol3_keys]
  have o0 : (decide (v3 0 < degreeOf (ovInit (molOv mol3 r3)) mol3.keys 0) : Bool) = true := by
    rw [decide_eq_true_eq, mol3_deg0]; norm_num [v3]
  have o1 : (decide (v3 1 < degreeOf (ovInit (molOv mol3 r3)) mol3.keys 1) : Bool) = true := by
    rw [decide_eq_true_eq, mol3_deg1]; norm_num [v3]
  have o2 : (decide (v3 2 < degreeOf (ovInit (molOv mol3 r3)) mol3.keys 2) : Bool) = false := by
    rw [decide_eq_false_iff_not, mol3_deg2]; norm_num [v3]
  rw [show (mol3.keys = [0, 1, 2]) from rfl] at o0 o1 o2
  simp [List.filter, o0, o1, o2]

lemma mol3_Mf_12 : ovFinal (molOv mol3 r3) mol3.keys v3 true 1 2 = 0.1 := by
  have hfin : ovFinal (molOv mol3 r3) mol3.keys v3 true =
      arbitrate mol3.keys v3 (ovInit (molOv mol3 r3))
        (oversatList (ovInit (molOv mol3 r3)) mol3.keys v3) := by
    simp [ovFinal]
  rw [hfin, mol3_over]
  show arbStep mol3.keys v3 (arbStep mol3.keys v3 (ovInit (molOv mol3 r3)) 0) 1 1 2 = 0.1
  rw [arbStep_apply, mol3_cut1]
  rw [if_neg ?_, mol3_M1_12]
  rintro (⟨-, h⟩ | ⟨h, -⟩)
  · exact absurd h (List.not_mem_nil 2)
  · norm_num at h

lemma mol3_Mf_10 : ovFinal (molOv mol3 r3) mol3.keys v3 true 1 0 = -1 := by
  have hfin : ovFinal (molOv mol3 r3) mol3.keys v3 true =
      arbitrate mol3.keys v3 (ovInit (molOv mol3 r3))
        (oversatList (ovInit (molOv mol3 r3)) mol3.keys v3) := by
    simp [ovFinal]
  rw [hfin, mol3_over]
  show arbStep mol3.keys v3 (arbStep mol3.keys v3 (ovInit (molOv mol3 r3)) 0) 1 1 0 = -1
  rw [arbStep_apply, mol3_cut1]
  rw [if_neg ?_, mol3_M1_10]
  rintro (⟨-, h⟩ | ⟨h, -⟩)
  · exact absurd h (List.not_mem_nil 0)
  · norm_num at h

/-- Counterexample to C3 as stated: atom `1` is initially oversaturated
(degree 2, valency 1) and its candidate overlaps are pairwise distinct,
yet after arbitration its *lowest*-overlap candidate edge `1-2`
(overlap 0.1) is kept and its highest-overlap edge `1-0` (overlap 0.2)
is removed: atom `0` (valency 0) was processed first and cut `0-1`,
which from atom `1`'s side is its strongest bond.  The removed edges are
therefore not the per-atom lowest-overlap excess edges. -/
theorem C3_counterexample :
    (v3 1 < degreeOf (ovInit (molOv mol3 r3)) mol3.keys 1) ∧
    (0 < ovInit (molOv mol3 r3) 1 2 ∧ 0 < ovInit (molOv mol3 r3) 1 0 ∧
      ovInit (molOv mol3 r3) 1 2 < ovInit (molOv mol3 r3) 1 0) ∧
    (2 ∈ get_bonds mol3 r3 v3 true false 25 6 1) ∧
    (0 ∉ get_bonds mol3 r3 v3 true false 25 6 1) := by
  refine ⟨?_, ⟨?_, ?_, ?_⟩, ?_, ?_⟩
  · rw [mol3_deg1]; norm_num [v3]
  · rw [M3_12]; norm_num
  · rw [M3_10]; norm_num
  · rw [M3_12, M3_10]; norm_num
  · rw [mem_get_bonds_nodiv]
    exact ⟨by rw [mol3_keys]; simp, by rw [mol3_keys]; simp, by rw [mol3_Mf_12]; norm_num⟩
  · rw [mem_get_bonds_nodiv]
    rintro ⟨-, -, hpos⟩
    rw [mol3_Mf_10] at hpos
    norm_num at hpos

lemma mol3_over_w : oversatList (ovInit (molOv mol3 r3)) mol3.keys v3w = [1] := by
  unfold oversatList
  rw [mol3_keys]
  have o0 : (decide (v3w 0 < degreeOf (ovInit (molOv mol3 r3)) mol3.keys 0) : Bool) = false := by
    rw [decide_eq_false_iff_not, mol3_deg0]; norm_num [v3w]
  have o1 : (decide (v3w 1 < degreeOf (ovInit (molOv mol3 r3)) mol3.keys 1) : Bool) = true := by
    rw [decide_eq_true_eq, mol3_deg1]; norm_num [v3w]
  have o2 : (decide (v3w 2 < degreeOf (ovInit (molOv mol3 r3)) mol3.keys 2) : Bool) = false := by
    rw [decide_eq_false_iff_not, mol3_deg2]; norm_num [v3w]
  rw [show (mol3.keys = [0, 1, 2]) from rfl] at o0 o1 o2
  simp [List.filter, o0, o1, o2]

/-- Witness for C3 amended on the three-atom chain with valencies 4/1/4:
atom `1` is the only oversaturated atom, its candidate overlaps are
pairwise distinct and no candidate bond joins two oversaturated atoms,
so both hypotheses hold; the amended theorem then yields the degree
bound and the cut count for atom `1`. -/
theorem C3_witness :
    (get_bonds mol3 r3 v3w true false 25 6 1).card ≤ v3w 1 ∧
    (cutList (ovInit (molOv mol3 r3)) mol3.keys 1 (v3w 1)).length + v3w 1 =
      degreeOf (ovInit (molOv mol3 r3)) mol3.keys 1 := by
  have H := C3_amended_valency_arbitration mol3 r3 v3w 25 6
  have h1 : ∀ i ∈ mol3.keys, ∀ j ∈ bondedTo (ovInit (molOv mol3 r3)) mol3.keys i,
      ∀ k ∈ bondedTo (ovInit (molOv mol3 r3)) mol3.keys i, j ≠ k →
        ovInit (molOv mol3 r3) i j ≠ ovInit (molOv mol3 r3) i k := by
    intro i hi
    rw [mol3_keys] at hi
    simp only [List.mem_cons, List.not_mem_nil, or_false] at hi
    rcases hi with rfl | rfl | rfl
    · intro j hj k hk hne
      rw [mol3_B0] at hj hk
      simp only [List.mem_singleton] at hj hk
      subst hj; subst hk
      exact absurd rfl hne
    · intro j hj k hk hne
      rw [mol3_B1] at hj hk
      simp only [List.mem_cons, List.not_mem_nil, or_false] at hj hk
      rcases hj with rfl | rfl <;> rcases hk with rfl | rfl
      · exact absurd rfl hne
      · rw [M3_10, M3_12]; norm_num
      · rw [M3_12, M3_10]; norm_num
      · exact absurd rfl hne
    · intro j hj k hk hne
      rw [mol3_B2] at hj hk
      simp only [List.mem_singleton] at hj hk
      subst hj; subst hk
      exact absurd rfl hne
  have h2 : ∀ i ∈ oversatList (ovInit (molOv mol3 r3)) mol3.keys v3w,
      ∀ j ∈ oversatList (ovInit (molOv mol3 r3)) mol3.keys v3w,
        i ≠ j → ¬ 0 < ovInit (molOv mol3 r3) i j := by
    intro i hi j hj hne
    rw [mol3_over_w] at hi hj
    simp only [List.mem_singleton] at hi hj
    subst hi; subst hj
    exact absurd rfl hne
  exact ⟨H.1 1, (H.2 h1 h2).2.1 1 (by rw [mol3_over_w]; exact List.mem_singleton_self 1)⟩

/-- Loop-step abstraction for the building loops: every iteration on a
non-empty `to_be_built` appends one of its members to `already_built`
and removes it (lines 865-866, 879-880). -/
def goodStep (step : OBState → OBState) : Prop :=
  ∀ s : OBState, s.todo ≠ [] →
    ∃ j, j ∈ s.todo ∧ (step s).built = s.built ++ [j] ∧ (step s).todo = s.todo.erase j

lemma argminD_cons_none {xs : List ℕ} {f : ℕ → ℝ} {x : ℕ} (h : argminD xs f = none) :
    argminD (x :: xs) f = some x := by
  unfold argminD
  rw [h]

lemma argminD_cons_some {xs : List ℕ} {f : ℕ → ℝ} {x z : ℕ} (h : argminD xs f = some z) :
    argminD (x :: xs) f = if f z < f x then some z else some x := by
  unfold argminD
  rw [h]

lemma argminD_mem {f : ℕ → ℝ} : ∀ {l : List ℕ} {y : ℕ}, argminD l f = some y → y ∈ l := by
  intro l
  induction l with
  | nil => intro y h; simp [argminD] at h
  | cons x xs ih =>
    intro y h
    cases hx : argminD xs f with
    | none =>
      rw [argminD_cons_none hx] at h
      simp only [Option.some.injEq] at h
      subst h
      exact List.mem_cons_self x xs
    | some z =>
      rw [argminD_cons_some hx] at h
      by_cases hc : f z < f x
      · rw [if_pos hc] at h
        simp only [Option.some.injEq] at h
        subst h
        exact List.mem_cons_of_mem x (ih hx)
      · rw [if_neg hc] at h
        simp only [Option.some.injEq] at h
        subst h
        exact List.mem_cons_self x xs

lemma argminD_isSome {l : List ℕ} (f : ℕ → ℝ) (h : l ≠ []) :
    ∃ y, argminD l f = some y ∧ y ∈ l := by
  cases l with
  | nil => exact absurd rfl h
  | cons x xs =>
    cases hx : argminD xs f with
    | none => exact ⟨x, argminD_cons_none hx, List.mem_cons_self x xs⟩
    | some z =>
      by_cases hc : f z < f x
      · rw [argminD_cons_some hx, if_pos hc]
        exact ⟨z, rfl, List.mem_cons_of_mem x (argminD_mem hx)⟩
      · rw [argminD_cons_some hx, if_neg hc]
        exact ⟨x, rfl, List.mem_cons_self x xs⟩

lemma argminD_getD_mem {l : List ℕ} {f : ℕ → ℝ} (h : l ≠ []) : (argminD l f).getD 0 ∈ l := by
  obtain ⟨y, hy, hm⟩ := argminD_isSome f h
  rw [hy]
  exact hm

lemma obLoop_perm {step : OBState → OBState} (hg : goodStep step) :
    ∀ (n : ℕ) (s : OBState), s.todo.length = n →
      List.Perm (obLoop step n s).built (s.built ++ s.todo) ∧ (obLoop step n s).todo = [] := by
  intro n
  induction n with
  | zero =>
    intro s h
    rw [List.length_eq_zero] at h
    rw [obLoop, h]
    exact ⟨by simp, rfl⟩
  | succ n ih =>
    intro s h
    have hne : s.todo ≠ [] := by
      intro he
      rw [he] at h
      simp at h
    obtain ⟨j, hj, hb, ht⟩ := hg s hne
    have hlen : (step s).todo.length = n := by
      rw [ht, List.length_erase_of_mem hj, h]
      omega
    obtain ⟨hperm, hnil⟩ := ih (step s) hlen
    refine ⟨?_, ?_⟩
    · show List.Perm (obLoop step n (step s)).built _
      refine hperm.trans ?_
      rw [hb, ht]
      have h1 : (s.built ++ [j]) ++ s.todo.erase j = s.built ++ (j :: s.todo.erase j) := by
        simp
      rw [h1]
      exact ((List.perm_cons_erase hj).symm).append_left s.built
    · exact hnil

/-- The centre-nearest pick, as the loops read it. -/
noncomputable def obZ (mol : Molecule) (todo : List ℕ) : ℕ := (zeroRefPick mol todo).getD 0

/-- The previous-nearest pick, as the loops read it. -/
noncomputable def obO (mol : Molecule) (todo : List ℕ) (i : ℕ) : ℕ :=
  (oneRefPick mol todo i).getD 0

/-- The two-reference pick, as the loops read it. -/
noncomputable def obT (mol : Molecule) (todo : List ℕ) (i p : ℕ) : ℕ :=
  (twoRefPick mol todo i p).getD 0

/-- The one-iteration pick of the `recursion == 1` loop, with the
distance fallback resolved. -/
noncomputable def obJ2 (mol : Molecule) (todo : List ℕ) (i : ℕ) : ℕ :=
  if 5 < dist3 (posOf mol (obO mol todo i)) (posOf mol i) then obZ mol todo else obO mol todo i

lemma obStep1_cons (mol : Molecule) (built : List ℕ) (x : ℕ) (xs : List ℕ)
    (idx prev : Option ℕ) (mode : ℕ) :
    obStep1 mol ⟨built, x :: xs, idx, prev, mode⟩ =
      if 0 < built.length then
        OBState.mk (built ++ [obJ2 mol (x :: xs) (idx.getD 0)])
          ((x :: xs).erase (obJ2 mol (x :: xs) (idx.getD 0)))
          (some (obJ2 mol (x :: xs) (idx.getD 0))) (some (idx.getD 0)) mode
      else
        OBState.mk (built ++ [obZ mol (x :: xs)]) ((x :: xs).erase (obZ mol (x :: xs)))
          (some (obZ mol (x :: xs))) prev mode := rfl

lemma obStep2_cons (mol : Molecule) (built : List ℕ) (x : ℕ) (xs : List ℕ)
    (idx prev : Option ℕ) (mode : ℕ) :
    obStep2 mol ⟨built, x :: xs, idx, prev, mode⟩ =
      if 1 < built.length ∨ mode = 2 then
        if 7 < dist3 (posOf mol (obT mol (x :: xs) (idx.getD 0) (prev.getD 0)))
            (posOf mol (idx.getD 0)) then
          OBState.mk (built ++ [obZ mol (x :: xs)]) ((x :: xs).erase (obZ mol (x :: xs)))
            (some (obZ mol (x :: xs))) (some (idx.getD 0)) 1
        else
          OBState.mk (built ++ [obT mol (x :: xs) (idx.getD 0) (prev.getD 0)])
            ((x :: xs).erase (obT mol (x :: xs) (idx.getD 0) (prev.getD 0)))
            (some (obT mol (x :: xs) (idx.getD 0) (prev.getD 0))) (some (idx.getD 0)) mode
      else if built.length = 1 ∨ mode = 1 then
        OBState.mk (built ++ [obO mol (x :: xs) (idx.getD 0)])
          ((x :: xs).erase (obO mol (x :: xs) (idx.getD 0)))
          (some (obO mol (x :: xs) (idx.getD 0))) (some (idx.getD 0)) 2
      else if built = [] then
        OBState.mk (built ++ [obZ mol (x :: xs)]) ((x :: xs).erase (obZ mol (x :: xs)))
          (some (obZ mol (x :: xs))) prev 1
      else ⟨built, x :: xs, idx, prev, mode⟩ := rfl

lemma obStep1_good (mol : Molecule) : goodStep (obStep1 mol) := by
  intro s hne
  obtain ⟨built, todo, idx, prev, mode⟩ := s
  cases todo with
  | nil => exact absurd rfl hne
  | cons x xs =>
    rw [obStep1_cons]
    by_cases h1 : 0 < built.length
    · rw [if_pos h1]
      exact ⟨obJ2 mol (x :: xs) (idx.getD 0), by
        unfold obJ2
        by_cases h5 : 5 < dist3 (posOf mol (obO mol (x :: xs) (idx.getD 0)))
            (posOf mol (idx.getD 0))
        · rw [if_pos h5]
          exact argminD_getD_mem (List.cons_ne_nil x xs)
        · rw [if_neg h5]
          exact argminD_getD_mem (List.cons_ne_nil x xs), rfl, rfl⟩
    · rw [if_neg h1]
      exact ⟨obZ mol (x :: xs), argminD_getD_mem (List.cons_ne_nil x xs), rfl, rfl⟩

lemma obStep2_good (mol : Molecule) : goodStep (obStep2 mol) := by
  intro s hne
  obtain ⟨built, todo, idx, prev, mode⟩ := s
  cases todo with
  | nil => exact absurd rfl hne
  | cons x xs =>
    rw [obStep2_cons]
    by_cases h1 : 1 < built.length ∨ mode = 2
    · rw [if_pos h1]
      by_cases h7 : 7 < dist3 (posOf mol (obT mol (x :: xs) (idx.getD 0) (prev.getD 0)))
          (posOf mol (idx.getD 0))
      · rw [if_pos h7]
        exact ⟨obZ mol (x :: xs), argminD_getD_mem (List.cons_ne_nil x xs), rfl, rfl⟩
      · rw [if_neg h7]
        exact ⟨obT mol (x :: xs) (idx.getD 0) (prev.getD 0),
          argminD_getD_mem (List.cons_ne_nil x xs), rfl, rfl⟩
    · rw [if_neg h1]
      by_cases h2 : built.length = 1 ∨ mode = 1
      · rw [if_pos h2]
        exact ⟨obO mol (x :: xs) (idx.getD 0), argminD_getD_mem (List.cons_ne_nil x xs), rfl, rfl⟩
      · rw [if_neg h2]
        by_cases h3 : built = []
        · rw [if_pos h3]
          exact ⟨obZ mol (x :: xs), argminD_getD_mem (List.cons_ne_nil x xs), rfl, rfl⟩
        · exfalso
          push_neg at h1 h2
          have h0 : built.length = 0 := by omega
          exact h3 (List.length_eq_zero.mp h0)

lemma orderKeys_map_inl (l : List ℕ) : orderKeys (l.map Sum.inl) = l := by
  unfold orderKeys
  rw [List.map_map]
  have h : (keyOf ∘ Sum.inl : ℕ → ℕ) = id := funext (fun k => rfl)
  rw [h, List.map_id]

/-- With no caller-given prefix, `_order_of_building` is a bare-key list
obtained by permuting the frame index. -/
lemma order_of_building_nil (mol : Molecule) (rec : Fin 3) :
    ∃ fl : List ℕ, _order_of_building mol [] rec = fl.map Sum.inl ∧ List.Perm fl mol.keys := by
  by_cases h2 : rec = 2
  · refine ⟨(obLoop (obStep2 mol) mol.keys.length ⟨[], mol.keys, none, none, 0⟩).built, ?_, ?_⟩
    · unfold _order_of_building
      simp only [List.map_nil, List.foldl_nil, List.reverse_nil, List.length_nil,
        List.drop_zero, List.nil_append]
      rw [if_pos h2]
    · have h := (obLoop_perm (obStep2_good mol) mol.keys.length
        ⟨[], mol.keys, none, none, 0⟩ rfl).1
      simpa using h
  · by_cases h1 : rec = 1
    · refine ⟨(obLoop (obStep1 mol) mol.keys.length ⟨[], mol.keys, none, none, 0⟩).built, ?_, ?_⟩
      · unfold _order_of_building
        simp only [List.map_nil, List.foldl_nil, List.reverse_nil, List.length_nil,
          List.drop_zero, List.nil_append]
        rw [if_neg h2, if_pos h1]
      · have h := (obLoop_perm (obStep1_good mol) mol.keys.length
          ⟨[], mol.keys, none, none, 0⟩ rfl).1
        simpa using h
    · refine ⟨mol.keys, ?_, List.Perm.refl _⟩
      unfold _order_of_building
      simp only [List.map_nil, List.foldl_nil, List.reverse_nil, List.length_nil,
        List.drop_zero, List.nil_append]
      rw [if_neg h2, if_neg h1]

/-- What the claim asserts of entry `i` of a reference list, relative to
the key sequence `ks` of the build order: the entry is headed by its own
atom key, its reference keys are pairwise distinct, all taken from the
keys of the earlier entries, never the atom itself, and their number is
`i` capped at 3. -/
def goodEntry (ks : List ℕ) (i : ℕ) (e : List ℕ) : Prop :=
  e.headD 0 = ks.getD i 0 ∧
  e.tail.Nodup ∧
  (∀ r ∈ e.tail, r ∈ ks.take i) ∧
  ks.getD i 0 ∉ e.tail ∧
  e.length = min (i + 1) 4

/-- Invariant of a `_get_reference` pass after `k` atoms are placed:
`to_be_built` and `already_built` are the split of the order at `k`, and
every produced entry satisfies the claim. -/
def RefInv (ks : List ℕ) (k : ℕ) (st : RefState) : Prop :=
  st.1 = ks.drop k ∧ st.2.1 = ks.take k ∧ st.2.2.length = k ∧
  ∀ i, i < k → goodEntry ks i (st.2.2.getD i [])

lemma definedEntry_map_inl (l : List ℕ) (k : ℕ) : definedEntry (l.map Sum.inl) k = none := by
  unfold definedEntry
  have h : (l.map Sum.inl).filterMap
      (fun e : ℕ ⊕ List ℕ => match e with | Sum.inr l => some l | Sum.inl _ => none) = [] := by
    induction l with
    | nil => rfl
    | cons a t ih => simpa [List.filterMap_cons] using ih
  rw [h]
  rfl

lemma getD_of_drop {ks : List ℕ} {k x : ℕ} {rest : List ℕ} (h : ks.drop k = x :: rest) :
    ks.getD k 0 = x := by
  have h0 : ks.getD k 0 = ((ks.drop k).headD 0) := by
    rw [List.getD_eq_getElem?_getD, List.headD_eq_head?_getD, List.head?_drop]
  rw [h0, h]
  rfl

lemma drop_succ_of_drop {ks : List ℕ} {k x : ℕ} {rest : List ℕ} (h : ks.drop k = x :: rest) :
    ks.drop (k + 1) = rest := by
  have h1 : ks.drop (k + 1) = (ks.drop k).drop 1 := by
    rw [List.drop_drop]
  rw [h1, h]
  rfl

lemma lt_length_of_drop {ks : List ℕ} {k x : ℕ} {rest : List ℕ} (h : ks.drop k = x :: rest) :
    k < ks.length := by
  by_contra hk
  push_neg at hk
  rw [List.drop_eq_nil_of_le hk] at h
  exact List.noConfusion h

lemma take_succ_of_drop {ks : List ℕ} {k x : ℕ} {rest : List ℕ} (h : ks.drop k = x :: rest) :
    ks.take k ++ [x] = ks.take (k + 1) := by
  have hk : k < ks.length := lt_length_of_drop h
  rw [List.take_succ]
  have h2 : ks[k]? = some x := by
    rw [← List.head?_drop, h]
    rfl
  rw [h2]
  rfl

lemma not_mem_take_of_drop {ks : List ℕ} (hnd : ks.Nodup) {k x : ℕ} {rest : List ℕ}
    (h : ks.drop k = x :: rest) : x ∉ ks.take k := by
  have h2 : ks.take k ++ ks.drop k = ks := List.take_append_drop k ks
  have hnd2 : (ks.take k ++ ks.drop k).Nodup := by
    rw [h2]
    exact hnd
  have hdisj := List.disjoint_of_nodup_append hnd2
  intro hx
  exact hdisj hx (by rw [h]; exact List.mem_cons_self x rest)

lemma take_nodup {ks : List ℕ} (hnd : ks.Nodup) (k : ℕ) : (ks.take k).Nodup :=
  hnd.sublist (List.take_sublist k ks)

lemma length_take_of_le {ks : List ℕ} {k : ℕ} (h : k ≤ ks.length) :
    (ks.take k).length = k := by
  rw [List.length_take]
  omega

lemma sortByVal_perm (l : List ℕ) (f : ℕ → ℝ) : List.Perm (sortByVal l f) l :=
  List.mergeSort_perm l _

lemma refSecond_cons (mol : Molecule) (d : ℕ → Option (List ℕ)) (x : ℕ)
    (rest built : List ℕ) (out : List (List ℕ)) :
    refSecond mol d (x :: rest, built, out) =
      match d x with
      | some e => some (rest, built ++ [x], out ++ [e])
      | none =>
        match argminD built (fun k => dist3 (posOf mol k) (posOf mol x)) with
        | some bw => some (rest, built ++ [x], out ++ [[x, bw]])
        | none => none := rfl

lemma refThird_cons (mol : Molecule) (d : ℕ → Option (List ℕ)) (x : ℕ)
    (rest built : List ℕ) (out : List (List ℕ)) :
    refThird mol d (x :: rest, built, out) =
      match d x with
      | some e => some (rest, built ++ [x], out ++ [e])
      | none =>
        match (sortByVal built (fun k => dist3 (posOf mol k) (posOf mol x))).take 2 with
        | [bw, aw] => some (rest, built ++ [x], out ++ [[x, bw, aw]])
        | _ => none := rfl

lemma refOther_cons (mol : Molecule) (d : ℕ → Option (List ℕ)) (x : ℕ)
    (rest built : List ℕ) (out : List (List ℕ)) :
    refOther mol d (x :: rest, built, out) =
      match d x with
      | some e => some (rest, built ++ [x], out ++ [e])
      | none =>
        match (sortByVal built (fun k => dist3 (posOf mol k) (posOf mol x))).take 3 with
        | [bw, aw, dw] => some (rest, built ++ [x], out ++ [[x, bw, aw, dw]])
        | _ => none := rfl

lemma sortByVal_nodup {l : List ℕ} (hnd : l.Nodup) (f : ℕ → ℝ) : (sortByVal l f).Nodup :=
  (sortByVal_perm l f).nodup_iff.mpr hnd

lemma exists_take2 {l : List ℕ} (h : 2 ≤ l.length) :
    ∃ a b, l.take 2 = [a, b] ∧ a ∈ l ∧ b ∈ l := by
  cases l with
  | nil => simp at h
  | cons a t =>
    cases t with
    | nil => simp at h
    | cons b t2 => exact ⟨a, b, rfl, by simp, by simp⟩

lemma exists_take3 (l : List ℕ) (h : 3 ≤ l.length) :
    ∃ a b c, l.take 3 = [a, b, c] ∧ a ∈ l ∧ b ∈ l ∧ c ∈ l := by
  cases l with
  | nil => simp at h
  | cons a t =>
    cases t with
    | nil => simp at h
    | cons b t2 =>
      cases t2 with
      | nil => simp at h
      | cons c t3 => exact ⟨a, b, c, rfl, by simp, by simp, by simp⟩

lemma refInv_extend {ks : List ℕ} {k : ℕ} {out : List (List ℕ)} {x : ℕ} {rest : List ℕ}
    {e : List ℕ} (hdrop : ks.drop k = x :: rest) (hout : out.length = k)
    (hgood : ∀ i, i < k → goodEntry ks i (out.getD i []))
    (he : goodEntry ks k e) :
    RefInv ks (k + 1) (rest, ks.take k ++ [x], out ++ [e]) := by
  refine ⟨(drop_succ_of_drop hdrop).symm, take_succ_of_drop hdrop, by simp [hout], ?_⟩
  intro i hi
  by_cases hik : i < k
  · show goodEntry ks i ((out ++ [e]).getD i [])
    rw [List.getD_append out [e] [] i (by omega)]
    exact hgood i hik
  · have hik2 : i = k := by omega
    subst hik2
    show goodEntry ks i ((out ++ [e]).getD i [])
    rw [List.getD_append_right out [e] [] i (by omega), hout]
    simpa using he

lemma refFirst_inv (ks : List ℕ) (h1 : 0 < ks.length) :
    ∃ st, refFirst (ks, [], []) = some st ∧ RefInv ks 1 st := by
  cases ks with
  | nil => simp at h1
  | cons x rest =>
    refine ⟨(rest, [x], [[x]]), rfl, rfl, rfl, rfl, ?_⟩
    intro i hi
    have hi0 : i = 0 := by omega
    subst hi0
    exact ⟨rfl, by simp, by simp, by simp, rfl⟩

lemma refSecond_inv (mol : Molecule) {d : ℕ → Option (List ℕ)} (hd : ∀ k, d k = none)
    {ks : List ℕ} (hnd : ks.Nodup) {st : RefState} (hInv : RefInv ks 1 st)
    (h2 : 2 ≤ ks.length) :
    ∃ st', refSecond mol d st = some st' ∧ RefInv ks 2 st' := by
  obtain ⟨todo, built, out⟩ := st
  obtain ⟨h_todo, h_built, h_out, h_good⟩ := hInv
  simp only at h_todo h_built h_out
  obtain ⟨x, rest, hdrop⟩ : ∃ x rest, ks.drop 1 = x :: rest := by
    cases hd2 : ks.drop 1 with
    | nil =>
      rw [List.drop_eq_nil_iff] at hd2
      omega
    | cons a t => exact ⟨a, t, rfl⟩
  subst h_todo h_built
  have hbne : ks.take 1 ≠ [] := by
    intro hcon
    have hlen := length_take_of_le (show 1 ≤ ks.length by omega)
    rw [hcon] at hlen
    simp at hlen
  obtain ⟨bw, hbw, hbwmem⟩ :=
    argminD_isSome (fun k => dist3 (posOf mol k) (posOf mol x)) hbne
  have he : goodEntry ks 1 [x, bw] := by
    refine ⟨(getD_of_drop hdrop).symm, by simp, ?_, ?_, rfl⟩
    · intro r hr
      simp only [List.tail_cons, List.mem_singleton] at hr
      subst hr
      exact hbwmem
    · rw [getD_of_drop hdrop]
      simp only [List.tail_cons, List.mem_singleton]
      intro hcon
      subst hcon
      exact (not_mem_take_of_drop hnd hdrop) hbwmem
  refine ⟨(rest, ks.take 1 ++ [x], out ++ [[x, bw]]), ?_, ?_⟩
  · rw [hdrop, refSecond_cons, hd x, hbw]
  · exact refInv_extend hdrop h_out h_good he

lemma refThird_inv (mol : Molecule) {d : ℕ → Option (List ℕ)} (hd : ∀ k, d k = none)
    {ks : List ℕ} (hnd : ks.Nodup) {st : RefState} (hInv : RefInv ks 2 st)
    (h3 : 3 ≤ ks.length) :
    ∃ st', refThird mol d st = some st' ∧ RefInv ks 3 st' := by
  obtain ⟨todo, built, out⟩ := st
  obtain ⟨h_todo, h_built, h_out, h_good⟩ := hInv
  simp only at h_todo h_built h_out
  obtain ⟨x, rest, hdrop⟩ : ∃ x rest, ks.drop 2 = x :: rest := by
    cases hd2 : ks.drop 2 with
    | nil =>
      rw [List.drop_eq_nil_iff] at hd2
      omega
    | cons a t => exact ⟨a, t, rfl⟩
  subst h_todo h_built
  have hblen : (ks.take 2).length = 2 := length_take_of_le (by omega)
  have hslen : (sortByVal (ks.take 2) (fun k => dist3 (posOf mol k) (posOf mol x))).length = 2 := by
    rw [(sortByVal_perm _ _).length_eq, hblen]
  obtain ⟨bw, aw, hsort⟩ := List.length_eq_two.mp hslen
  have htake : (sortByVal (ks.take 2) (fun k => dist3 (posOf mol k) (posOf mol x))).take 2 =
      [bw, aw] := by
    rw [List.take_of_length_le (by rw [hslen]), hsort]
  have hsnd : ([bw, aw] : List ℕ).Nodup := by
    rw [← hsort]
    exact sortByVal_nodup (take_nodup hnd 2) _
  have hbwmem : bw ∈ ks.take 2 := by
    rw [← (sortByVal_perm (ks.take 2) (fun k => dist3 (posOf mol k) (posOf mol x))).mem_iff,
      hsort]
    simp
  have hawmem : aw ∈ ks.take 2 := by
    rw [← (sortByVal_perm (ks.take 2) (fun k => dist3 (posOf mol k) (posOf mol x))).mem_iff,
      hsort]
    simp
  have he : goodEntry ks 2 [x, bw, aw] := by
    refine ⟨(getD_of_drop hdrop).symm, ?_, ?_, ?_, rfl⟩
    · simpa using hsnd
    · intro r hr
      simp only [List.tail_cons, List.mem_cons, List.mem_singleton, List.not_mem_nil,
        or_false] at hr
      rcases hr with rfl | rfl
      · exact hbwmem
      · exact hawmem
    · rw [getD_of_drop hdrop]
      simp only [List.tail_cons, List.mem_cons, List.mem_singleton, List.not_mem_nil, or_false]
      rintro (rfl | rfl)
      · exact (not_mem_take_of_drop hnd hdrop) hbwmem
      · exact (not_mem_take_of_drop hnd hdrop) hawmem
  refine ⟨(rest, ks.take 2 ++ [x], out ++ [[x, bw, aw]]), ?_, ?_⟩
  · rw [hdrop, refThird_cons, hd x, htake]
  · exact refInv_extend hdrop h_out h_good he

lemma refOther_inv (mol : Molecule) {d : ℕ → Option (List ℕ)} (hd : ∀ k, d k = none)
    {ks : List ℕ} (hnd : ks.Nodup) {k : ℕ} {st : RefState} (hInv : RefInv ks k st)
    (h3 : 3 ≤ k) (hk : k < ks.length) :
    ∃ st', refOther mol d st = some st' ∧ RefInv ks (k + 1) st' := by
  obtain ⟨todo, built, out⟩ := st
  obtain ⟨h_todo, h_built, h_out, h_good⟩ := hInv
  simp only at h_todo h_built h_out
  obtain ⟨x, rest, hdrop⟩ : ∃ x rest, ks.drop k = x :: rest := by
    cases hd2 : ks.drop k with
    | nil =>
      rw [List.drop_eq_nil_iff] at hd2
      omega
    | cons a t => exact ⟨a, t, rfl⟩
  subst h_todo h_built
  have hblen : (ks.take k).length = k := length_take_of_le (by omega)
  have hslen : (sortByVal (ks.take k) (fun j => dist3 (posOf mol j) (posOf mol x))).length = k := by
    rw [(sortByVal_perm _ _).length_eq, hblen]
  obtain ⟨bw, aw, dw, htake, hbw, haw, hdw⟩ :=
    exists_take3 (sortByVal (ks.take k) (fun j => dist3 (posOf mol j) (posOf mol x)))
      (by omega)
  have hsnd : ([bw, aw, dw] : List ℕ).Nodup := by
    rw [← htake]
    exact (sortByVal_nodup (take_nodup hnd k) _).sublist (List.take_sublist 3 _)
  have hbwm : bw ∈ ks.take k := ((sortByVal_perm _ _).mem_iff).mp hbw
  have hawm : aw ∈ ks.take k := ((sortByVal_perm _ _).mem_iff).mp haw
  have hdwm : dw ∈ ks.take k := ((sortByVal_perm _ _).mem_iff).mp hdw
  have he : goodEntry ks k [x, bw, aw, dw] := by
    refine ⟨(getD_of_drop hdrop).symm, ?_, ?_, ?_, ?_⟩
    · simpa using hsnd
    · intro r hr
      simp only [List.tail_cons, List.mem_cons, List.mem_singleton, List.not_mem_nil,
        or_false] at hr
      rcases hr with rfl | rfl | rfl
      · exact hbwm
      · exact hawm
      · exact hdwm
    · rw [getD_of_drop hdrop]
      simp only [List.tail_cons, List.mem_cons, List.mem_singleton, List.not_mem_nil, or_false]
      rintro (rfl | rfl | rfl)
      · exact (not_mem_take_of_drop hnd hdrop) hbwm
      · exact (not_mem_take_of_drop hnd hdrop) hawm
      · exact (not_mem_take_of_drop hnd hdrop) hdwm
    · show 4 = min (k + 1) 4
      omega
  refine ⟨(rest, ks.take k ++ [x], out ++ [[x, bw, aw, dw]]), ?_, ?_⟩
  · rw [hdrop, refOther_cons, hd x, htake]
  · exact refInv_extend hdrop h_out h_good he

lemma refOthers_inv (mol : Molecule) {d : ℕ → Option (List ℕ)} (hd : ∀ k, d k = none)
    {ks : List ℕ} (hnd : ks.Nodup) :
    ∀ (m k : ℕ) (st : RefState), RefInv ks k st → 3 ≤ k → k + m ≤ ks.length →
      ∃ st', refOthers mol d m st = some st' ∧ RefInv ks (k + m) st' := by
  intro m
  induction m with
  | zero =>
    intro k st hInv _ _
    exact ⟨st, rfl, hInv⟩
  | succ m ih =>
    intro k st hInv h3 hsum
    obtain ⟨st1, hst1, hInv1⟩ := refOther_inv mol hd hnd hInv h3 (by omega)
    obtain ⟨st', hst', hInv'⟩ := ih (k + 1) st1 hInv1 (by omega) (by omega)
    refine ⟨st', ?_, ?_⟩
    · show (refOther mol d st).bind (refOthers mol d m) = some st'
      rw [hst1, Option.some_bind]
      exact hst'
    · have hke : k + (m + 1) = (k + 1) + m := by omega
      rw [hke]
      exact hInv'

lemma zWindows_length : ∀ (rest : List ℕ) (a b c : ℕ),
    (zWindows a b c rest).length = rest.length := by
  intro rest
  induction rest with
  | nil => intro a b c; rfl
  | cons d rest2 ih =>
    intro a b c
    show (zWindows b c d rest2).length + 1 = rest2.length + 1
    rw [ih]

lemma getD_cons3 (a b c : ℕ) (l : List ℕ) (m : ℕ) :
    (a :: b :: c :: l).getD (m + 3) 0 = l.getD m 0 := rfl

lemma zWindows_getD : ∀ (rest : List ℕ) (a b c i : ℕ), i < rest.length →
    (zWindows a b c rest).getD i [] =
      [rest.getD i 0, ([a, b, c] ++ rest).getD (i + 2) 0,
       ([a, b, c] ++ rest).getD (i + 1) 0, ([a, b, c] ++ rest).getD i 0] := by
  intro rest
  induction rest with
  | nil => intro a b c i hi; simp at hi
  | cons d rest2 ih =>
    intro a b c i hi
    cases i with
    | zero => rfl
    | succ i =>
      show (zWindows b c d rest2).getD i [] = _
      rw [ih b c d i (by simpa using hi)]
      rfl

lemma getD_ne_of_ne {ks : List ℕ} (hnd : ks.Nodup) {i j : ℕ} (hij : i ≠ j)
    (hi : i < ks.length) (hj : j < ks.length) : ks.getD i 0 ≠ ks.getD j 0 := by
  rw [List.getD_eq_getElem ks 0 hi, List.getD_eq_getElem ks 0 hj]
  intro h
  exact hij ((List.Nodup.getElem_inj_iff hnd).mp h)

lemma getD_mem_take {ks : List ℕ} {j i : ℕ} (hji : j < i) (hj : j < ks.length) :
    ks.getD j 0 ∈ ks.take i := by
  rw [List.getD_eq_getElem ks 0 hj]
  have hlt : j < (ks.take i).length := by
    rw [List.length_take]
    omega
  have h1 : (ks.take i).get ⟨j, hlt⟩ = ks[j] := by
    rw [List.get_eq_getElem]
    exact List.getElem_take ks ..
  rw [← h1]
  exact List.get_mem _ _ hlt

lemma goodEntry_zero {ks : List ℕ} : goodEntry ks 0 [ks.getD 0 0] :=
  ⟨rfl, by simp, by simp, by simp, rfl⟩

lemma goodEntry_one {ks : List ℕ} (hnd : ks.Nodup) (h : 1 < ks.length) :
    goodEntry ks 1 [ks.getD 1 0, ks.getD 0 0] := by
  refine ⟨rfl, by simp, ?_, ?_, rfl⟩
  · intro r hr
    simp only [List.tail_cons, List.mem_singleton] at hr
    subst hr
    exact getD_mem_take (by omega) (by omega)
  · simp only [List.tail_cons, List.mem_singleton]
    exact getD_ne_of_ne hnd (by omega) (by omega) (by omega)

lemma goodEntry_two {ks : List ℕ} (hnd : ks.Nodup) (h : 2 < ks.length) :
    goodEntry ks 2 [ks.getD 2 0, ks.getD 1 0, ks.getD 0 0] := by
  have h10 : ks.getD 1 0 ≠ ks.getD 0 0 := getD_ne_of_ne hnd (by omega) (by omega) (by omega)
  have h21 : ks.getD 2 0 ≠ ks.getD 1 0 := getD_ne_of_ne hnd (by omega) (by omega) (by omega)
  have h20 : ks.getD 2 0 ≠ ks.getD 0 0 := getD_ne_of_ne hnd (by omega) (by omega) (by omega)
  refine ⟨rfl, ?_, ?_, ?_, rfl⟩
  · show ([ks.getD 1 0, ks.getD 0 0]).Nodup
    refine List.nodup_cons.mpr ⟨?_, List.nodup_singleton _⟩
    simp only [List.mem_singleton]
    exact h10
  · intro r hr
    simp only [List.tail_cons, List.mem_cons, List.mem_singleton, List.not_mem_nil,
      or_false] at hr
    rcases hr with rfl | rfl
    · exact getD_mem_take (by omega) (by omega)
    · exact getD_mem_take (by omega) (by omega)
  · simp only [List.tail_cons, List.mem_cons, List.mem_singleton, List.not_mem_nil, or_false]
    rintro (h' | h')
    · exact h21 h'
    · exact h20 h'

lemma goodEntry_window {ks : List ℕ} (hnd : ks.Nodup) {i : ℕ} (h3 : 3 ≤ i)
    (hi : i < ks.length) :
    goodEntry ks i [ks.getD i 0, ks.getD (i - 1) 0, ks.getD (i - 2) 0, ks.getD (i - 3) 0] := by
  have h12 : ks.getD (i - 1) 0 ≠ ks.getD (i - 2) 0 :=
    getD_ne_of_ne hnd (by omega) (by omega) (by omega)
  have h13 : ks.getD (i - 1) 0 ≠ ks.getD (i - 3) 0 :=
    getD_ne_of_ne hnd (by omega) (by omega) (by omega)
  have h23 : ks.getD (i - 2) 0 ≠ ks.getD (i - 3) 0 :=
    getD_ne_of_ne hnd (by omega) (by omega) (by omega)
  have h01 : ks.getD i 0 ≠ ks.getD (i - 1) 0 :=
    getD_ne_of_ne hnd (by omega) (by omega) (by omega)
  have h02 : ks.getD i 0 ≠ ks.getD (i - 2) 0 :=
    getD_ne_of_ne hnd (by omega) (by omega) (by omega)
  have h03 : ks.getD i 0 ≠ ks.getD (i - 3) 0 :=
    getD_ne_of_ne hnd (by omega) (by omega) (by omega)
  refine ⟨rfl, ?_, ?_, ?_, ?_⟩
  · show ([ks.getD (i - 1) 0, ks.getD (i - 2) 0, ks.getD (i - 3) 0]).Nodup
    refine List.nodup_cons.mpr ⟨?_, List.nodup_cons.mpr ⟨?_, List.nodup_singleton _⟩⟩
    · simp only [List.mem_cons, List.mem_singleton, List.not_mem_nil, or_false]
      rintro (h' | h')
      · exact h12 h'
      · exact h13 h'
    · simp only [List.mem_singleton]
      exact h23
  · intro r hr
    simp only [List.tail_cons, List.mem_cons, List.mem_singleton, List.not_mem_nil,
      or_false] at hr
    rcases hr with rfl | rfl | rfl
    · exact getD_mem_take (by omega) (by omega)
    · exact getD_mem_take (by omega) (by omega)
    · exact getD_mem_take (by omega) (by omega)
  · simp only [List.tail_cons, List.mem_cons, List.mem_singleton, List.not_mem_nil, or_false]
    rintro (h' | h' | h')
    · exact h01 h'
    · exact h02 h'
    · exact h03 h'
  · show 4 = min (i + 1) 4
    omega

/-- The `recursion > 0` pass of `_get_reference` on a bare-key order of
length other than one: it succeeds and every produced entry satisfies
the claim. -/
lemma get_reference_inl_pos (mol : Molecule) {fl : List ℕ} (hnd : fl.Nodup) (rec : Fin 3)
    (hrec : 0 < rec.val) (hn : fl.length ≠ 1) :
    ∃ rl, _get_reference mol (fl.map Sum.inl) rec = some rl ∧ rl.length = fl.length ∧
      ∀ i, i < rl.length → goodEntry fl i (rl.getD i []) := by
  have hd := definedEntry_map_inl fl
  simp only [_get_reference, orderKeys_map_inl]
  rw [if_pos hrec, if_neg hn]
  by_cases hn2 : fl.length = 2
  · rw [if_pos hn2]
    obtain ⟨st1, h1, hInv1⟩ := refFirst_inv fl (by omega)
    obtain ⟨st2, h2, hInv2⟩ := refSecond_inv mol hd hnd hInv1 (by omega)
    refine ⟨st2.2.2, ?_, ?_, ?_⟩
    · simp only [h1, Option.some_bind, h2, Option.map_some']
    · rw [hInv2.2.2.1, hn2]
    · intro i hi
      rw [hInv2.2.2.1] at hi
      exact hInv2.2.2.2 i hi
  · rw [if_neg hn2]
    by_cases hn3 : fl.length = 3
    · rw [if_pos hn3]
      obtain ⟨st1, h1, hInv1⟩ := refFirst_inv fl (by omega)
      obtain ⟨st2, h2, hInv2⟩ := refSecond_inv mol hd hnd hInv1 (by omega)
      obtain ⟨st3, h3, hInv3⟩ := refThird_inv mol hd hnd hInv2 (by omega)
      refine ⟨st3.2.2, ?_, ?_, ?_⟩
      · simp only [h1, Option.some_bind, h2, h3, Option.map_some']
      · rw [hInv3.2.2.1, hn3]
      · intro i hi
        rw [hInv3.2.2.1] at hi
        exact hInv3.2.2.2 i hi
    · rw [if_neg hn3]
      by_cases hn4 : 3 < fl.length
      · rw [if_pos hn4]
        obtain ⟨st1, h1, hInv1⟩ := refFirst_inv fl (by omega)
        obtain ⟨st2, h2, hInv2⟩ := refSecond_inv mol hd hnd hInv1 (by omega)
        obtain ⟨st3, h3, hInv3⟩ := refThird_inv mol hd hnd hInv2 (by omega)
        obtain ⟨st4, h4, hInv4⟩ :=
          refOthers_inv mol hd hnd (fl.length - 3) 3 st3 hInv3 (by omega) (by omega)
        have htot : 3 + (fl.length - 3) = fl.length := by omega
        refine ⟨st4.2.2, ?_, ?_, ?_⟩
        · simp only [h1, Option.some_bind, h2, h3, h4, Option.map_some']
        · rw [hInv4.2.2.1, htot]
        · intro i hi
          rw [hInv4.2.2.1, htot] at hi
          have := hInv4.2.2.2 i (by omega)
          exact this
      · rw [if_neg hn4]
        have h0 : fl.length = 0 := by omega
        refine ⟨[], rfl, h0.symm, ?_⟩
        intro i hi
        simp at hi

/-- The `recursion > 0` pass of `_get_reference` on a single bare key:
`second_atom(to_be_built[0])` reads an emptied list (line 962) and the
call errors. -/
lemma get_reference_inl_one (mol : Molecule) {fl : List ℕ} (rec : Fin 3)
    (hrec : 0 < rec.val) (hn : fl.length = 1) :
    _get_reference mol (fl.map Sum.inl) rec = none := by
  obtain ⟨x, rfl⟩ := List.length_eq_one.mp hn
  simp only [_get_reference, orderKeys_map_inl]
  rw [if_pos hrec, if_pos hn]
  rfl

/-- The `recursion == 0` pass of `_get_reference` on a bare-key order:
it always succeeds, with the sliding-window entries of lines 995-1005. -/
lemma get_reference_inl_zero (mol : Molecule) {fl : List ℕ} (hnd : fl.Nodup) (rec : Fin 3)
    (hrec : rec.val = 0) :
    ∃ rl, _get_reference mol (fl.map Sum.inl) rec = some rl ∧ rl.length = fl.length ∧
      ∀ i, i < rl.length → goodEntry fl i (rl.getD i []) := by
  simp only [_get_reference, orderKeys_map_inl]
  rw [if_neg (by omega)]
  rcases fl with _ | ⟨a, _ | ⟨b, _ | ⟨c, _ | ⟨d, rest2⟩⟩⟩⟩
  · refine ⟨[], rfl, rfl, ?_⟩
    intro i hi
    simp at hi
  · refine ⟨[[a]], rfl, rfl, ?_⟩
    intro i hi
    have h1 : ([[a]] : List (List ℕ)).length = 1 := rfl
    rw [h1] at hi
    have h0 : i = 0 := by omega
    subst h0
    exact goodEntry_zero
  · refine ⟨[[a], [b, a]], rfl, rfl, ?_⟩
    intro i hi
    have h1 : ([[a], [b, a]] : List (List ℕ)).length = 2 := rfl
    rw [h1] at hi
    have h01 : i = 0 ∨ i = 1 := by omega
    rcases h01 with rfl | rfl
    · exact goodEntry_zero
    · exact goodEntry_one hnd (by simp only [List.length_cons]; omega)
  · refine ⟨[[a], [b, a], [c, b, a]], rfl, rfl, ?_⟩
    intro i hi
    have h1 : ([[a], [b, a], [c, b, a]] : List (List ℕ)).length = 3 := rfl
    rw [h1] at hi
    have h012 : i = 0 ∨ i = 1 ∨ i = 2 := by omega
    rcases h012 with rfl | rfl | rfl
    · exact goodEntry_zero
    · exact goodEntry_one hnd (by simp only [List.length_cons]; omega)
    · exact goodEntry_two hnd (by simp only [List.length_cons]; omega)
  · refine ⟨[[a], [b, a], [c, b, a]] ++ zWindows a b c (d :: rest2), rfl, ?_, ?_⟩
    · simp only [List.length_append, zWindows_length, List.length_cons, List.length_nil]
      omega
    · intro i hi
      have hlen : (([[a], [b, a], [c, b, a]] : List (List ℕ)) ++
          zWindows a b c (d :: rest2)).length = 3 + (d :: rest2).length := by
        simp only [List.length_append, zWindows_length]
        rfl
      rw [hlen] at hi
      by_cases h3 : i < 3
      · rw [List.getD_append [[a], [b, a], [c, b, a]] (zWindows a b c (d :: rest2)) [] i
          (by exact h3)]
        have h012 : i = 0 ∨ i = 1 ∨ i = 2 := by omega
        rcases h012 with rfl | rfl | rfl
        · exact goodEntry_zero
        · exact goodEntry_one hnd (by simp only [List.length_cons]; omega)
        · exact goodEntry_two hnd (by simp only [List.length_cons]; omega)
      · push_neg at h3
        obtain ⟨m, rfl⟩ : ∃ m, i = m + 3 := ⟨i - 3, by omega⟩
        rw [List.getD_append_right [[a], [b, a], [c, b, a]] (zWindows a b c (d :: rest2)) []
          (m + 3) (by exact Nat.le_add_left 3 m)]
        have hidx : m + 3 - ([[a], [b, a], [c, b, a]] : List (List ℕ)).length = m := by
          simp
        rw [hidx]
        have hm : m < (d :: rest2).length := by omega
        rw [zWindows_getD (d :: rest2) a b c m hm]
        exact goodEntry_window hnd (by omega) (by simp only [List.length_cons] at hi ⊢; omega)

/-- C7 amended: with no caller-given prefix, the build order of
`_order_of_building` is a bare-key permutation of the frame index for
every recursion level; and whenever the order does not consist of a
single atom under `recursion > 0`, `_get_reference` succeeds and every
entry of the reference list is headed by its own build-order key with
pairwise-distinct references, all drawn from the keys of the earlier
entries and never the atom itself, numbering `min(i, 3)`.  For a single
atom under `recursion > 0` the claim fails: `second_atom` is called on
the already-exhausted `to_be_built` (line 962) and the call errors
instead of producing a reference list. -/
theorem C7_amended_build_order_and_references (mol : Molecule) (rec : Fin 3) :
    List.Perm (orderKeys (_order_of_building mol [] rec)) mol.keys ∧
    (¬(mol.keys.length = 1 ∧ 0 < rec.val) →
      ∃ rl, _get_reference mol (_order_of_building mol [] rec) rec = some rl ∧
        rl.length = mol.keys.length ∧
        ∀ i, i < rl.length →
          goodEntry (orderKeys (_order_of_building mol [] rec)) i (rl.getD i [])) ∧
    (mol.keys.length = 1 ∧ 0 < rec.val →
      _get_reference mol (_order_of_building mol [] rec) rec = none) := by
  obtain ⟨fl, hof, hperm⟩ := order_of_building_nil mol rec
  have hnd : fl.Nodup := hperm.nodup_iff.mpr mol.nodup
  have hlen : fl.length = mol.keys.length := hperm.length_eq
  rw [hof, orderKeys_map_inl]
  refine ⟨hperm, ?_, ?_⟩
  · intro hno
    by_cases hrec : 0 < rec.val
    · have hn1 : fl.length ≠ 1 := by
        intro hcon
        exact hno ⟨by omega, hrec⟩
      obtain ⟨rl, h1, h2, h3⟩ := get_reference_inl_pos mol hnd rec hrec hn1
      exact ⟨rl, h1, by rw [h2, hlen], h3⟩
    · have hr0 : rec.val = 0 := by omega
      obtain ⟨rl, h1, h2, h3⟩ := get_reference_inl_zero mol hnd rec hr0
      exact ⟨rl, h1, by rw [h2, hlen], h3⟩
  · rintro ⟨hone, hrec⟩
    exact get_reference_inl_one mol rec hrec (by omega)

/-- A one-atom frame. -/
def mol7c : Molecule := ⟨[(0, ⟨0, 0, 0⟩)], by decide⟩

/-- A two-atom frame. -/
def mol7w : Molecule := ⟨[(0, ⟨0, 0, 0⟩), (1, ⟨1, 0, 0⟩)], by decide⟩

/-- Counterexample to C7 as stated: on a one-atom molecule with
`recursion = 1`, `_order_of_building` returns the single key, but
`_get_reference` produces no reference list at all — after `first_atom`
consumes the only atom, line 962 evaluates `to_be_built[0]` on an empty
list and raises `IndexError` — so the claimed per-entry properties of
the produced reference list fail to hold for want of a produced list. -/
theorem C7_counterexample :
    _get_reference mol7c (_order_of_building mol7c [] 1) 1 = none := rfl

/-- Witness for C7 amended on a two-atom frame with `recursion = 0`:
the hypothesis of the success branch holds, the pass returns the
two-entry list `[[0], [1, 0]]`, and its second entry satisfies the
per-entry property. -/
theorem C7_witness :
    ¬(mol7w.keys.length = 1 ∧ 0 < (0 : Fin 3).val) ∧
    goodEntry (orderKeys (_order_of_building mol7w [] 0)) 1 ([[0], [1, 0]].getD 1 []) := by
  have H := C7_amended_build_order_and_references mol7w 0
  have hno : ¬(mol7w.keys.length = 1 ∧ 0 < (0 : Fin 3).val) := by
    rintro ⟨-, h⟩
    simp at h
  obtain ⟨rl, hrl, hlen, hgood⟩ := H.2.1 hno
  have hsome : _get_reference mol7w (_order_of_building mol7w [] 0) 0 = some [[0], [1, 0]] :=
    rfl
  rw [hsome] at hrl
  have hrl2 : rl = [[0], [1, 0]] := (Option.some_inj.mp hrl).symm
  subst hrl2
  refine ⟨hno, ?_⟩
  exact hgood 1 (by rw [hlen]; decide)
